import Mathlib

/-!
Verification of the resumable subtitle translation pipeline
(`subtitle_parser.py`, `subtitle_translator_smart.py`,
`subtitle_translator_resume.py`).

Shallow embedding conventions:
* Python strings are modelled as `List Char`; a text file's content is
  modelled as its list of lines (`List (List Char)`), i.e. the result of
  Python's `content.split('\n')`; file writers are modelled as functions
  producing that line list.
* Python's `re.sub`, `str.strip`, `str.startswith`, `in` (substring) are
  modelled by executable `List Char` functions below.
* `\d` and `\s` of the regexes are modelled as ASCII digits and ASCII
  whitespace respectively.
* The external pieces (`openai` client call, `json.loads`) are not
  repository code: the oracle is a parameter giving each attempt's outcome
  and `json.loads` is a parameter `loads` producing an optional string-to-
  string mapping (the shape the pipeline consumes).
-/

/-- `s.toList`, abbreviation used to write string literals as `List Char`. -/
def str (s : String) : List Char := s.toList

/-- ASCII whitespace, modelling the character class stripped by Python
`str.strip()` and matched by `\s`. -/
def isSpaceChar (c : Char) : Bool :=
  c = ' ' || c = '\t' || c = '\n' || c = '\r' || c = '\x0b' || c = '\x0c'

/-- Python `s.strip()`. -/
def pstrip (l : List Char) : List Char :=
  ((l.dropWhile isSpaceChar).reverse.dropWhile isSpaceChar).reverse

/-- Python `s.startswith(pat)` on char lists. -/
def startsWithList : List Char → List Char → Bool
  | [], _ => true
  | _ :: _, [] => false
  | p :: ps, c :: cs => p = c && startsWithList ps cs

/-- Python `pat in s` (substring containment) on char lists. -/
def containsSub (pat : List Char) : List Char → Bool
  | [] => startsWithList pat []
  | c :: cs => startsWithList pat (c :: cs) || containsSub pat cs

/-- Python `s.endswith(pat)` on char lists. -/
def endsWithList (pat l : List Char) : Bool :=
  startsWithList pat.reverse l.reverse

/-- `'-->' in line`. -/
def containsArrow (l : List Char) : Bool :=
  containsSub (str "-->") l

/-- A subtitle block as the orchestrators store it: source text plus the
optional translation (`None` until set).  Timing fields are carried along
unchanged. -/
structure OBlock where
  start_time : List Char
  end_time : List Char
  text : List Char
  translated : Option (List Char)
deriving Repr, DecidableEq

/-- `SuperSmartVTTTranslator.is_natural_breakpoint`: text ends with a
sentence-terminal punctuation mark or a terminal mark followed by a closing
quote. -/
def is_natural_breakpoint (text : List Char) : Bool :=
  let t := pstrip text
  ([str ".", str "!", str "?", str "...", str "。", str "！", str "？", str "…"].any
      fun e => endsWithList e t)
  || endsWithList (str ".\"") t || endsWithList (str "!\"") t || endsWithList (str "?\"") t

/-- The loop of `create_smart_batches`: walk the blocks with current index
`i`, open batch start `start_idx` and running count `cs`; close the batch at
a natural breakpoint once `min_size` is reached, or unconditionally at
`max_size`; emit the trailing partial batch at the end. -/
def smartLoop (minS maxS : Nat) : List OBlock → Nat → Nat → Nat → List (Nat × Nat)
  | [], i, start_idx, _ => if start_idx < i then [(start_idx, i)] else []
  | b :: rest, i, start_idx, cs =>
    let cs1 := cs + 1
    if minS ≤ cs1 ∧ (is_natural_breakpoint b.text ∨ maxS ≤ cs1) then
      (start_idx, i + 1) :: smartLoop minS maxS rest (i + 1) (i + 1) 0
    else
      smartLoop minS maxS rest (i + 1) start_idx cs1

/-- `SuperSmartVTTTranslator.create_smart_batches` (the `target_size`
argument only feeds logging in the source and does not influence the
result). -/
def create_smart_batches (blocks : List OBlock)
    (target_size min_size max_size : Nat) : List (Nat × Nat) :=
  let _ := target_size
  smartLoop min_size max_size blocks 0 0 0

/-- `batchesChain s L e`: the ranges in `L` are non-empty, contiguous,
half-open, ascending, starting at `s` and jointly covering `[s, e)`. -/
def batchesChain : Nat → List (Nat × Nat) → Nat → Bool
  | s, [], e => s == e
  | s, p :: rest, e => (p.1 == s) && decide (s < p.2) && batchesChain p.2 rest e

theorem mem_dropLast_cons {α : Type} {p x : α} {L : List α}
    (h : p ∈ (x :: L).dropLast) : p = x ∨ p ∈ L.dropLast := by
  cases L with
  | nil => simp [List.dropLast] at h
  | cons y ys =>
    rw [show (x :: y :: ys).dropLast = x :: (y :: ys).dropLast from rfl] at h
    rcases List.mem_cons.mp h with h | h
    · exact Or.inl h
    · exact Or.inr h

theorem smartLoop_spec (minS maxS : Nat) (hmin : 0 < minS) (hle : minS ≤ maxS) :
    ∀ (bs : List OBlock) (i start cs : Nat), start + cs = i → cs < maxS →
      batchesChain start (smartLoop minS maxS bs i start cs) (i + bs.length) = true ∧
      (∀ p ∈ smartLoop minS maxS bs i start cs, p.2 - p.1 ≤ maxS ∧ 0 < p.2 - p.1) ∧
      (∀ p ∈ (smartLoop minS maxS bs i start cs).dropLast, minS ≤ p.2 - p.1) := by
  intro bs
  induction bs with
  | nil =>
    intro i start cs hinv hcs
    by_cases hlt : start < i
    · simp only [smartLoop, if_pos hlt, List.length_nil, Nat.add_zero]
      refine ⟨?_, ?_, ?_⟩
      · simp [batchesChain, hlt]
      · intro p hp
        rcases List.mem_singleton.mp hp with rfl
        constructor
        · simpa using Nat.le_of_lt (by omega : i - start < maxS)
        · simpa using hlt
      · intro p hp
        simp [List.dropLast] at hp
    · simp only [smartLoop, if_neg hlt, List.length_nil, Nat.add_zero]
      have : start = i := by omega
      refine ⟨by simp [batchesChain, this], by simp, by simp [List.dropLast]⟩
  | cons b rest ih =>
    intro i start cs hinv hcs
    by_cases hclose : minS ≤ cs + 1 ∧ (is_natural_breakpoint b.text ∨ maxS ≤ cs + 1)
    · simp only [smartLoop, if_pos hclose]
      obtain ⟨ihchain, ihsz, ihlast⟩ :=
        ih (i + 1) (i + 1) 0 (by omega) (by omega)
      have hlen : i + (b :: rest).length = i + 1 + rest.length := by
        simp [List.length_cons]; omega
      refine ⟨?_, ?_, ?_⟩
      · have h1 : start < i + 1 := by omega
        simp only [batchesChain, hlen]
        simp [h1, ihchain]
      · intro p hp
        rcases List.mem_cons.mp hp with rfl | hp
        · exact ⟨by omega, by omega⟩
        · exact ihsz p hp
      · intro p hp
        rcases mem_dropLast_cons hp with rfl | hp
        · omega
        · exact ihlast p hp
    · simp only [smartLoop, if_neg hclose]
      have hcs1 : cs + 1 < maxS := by
        by_contra hge
        exact hclose ⟨by omega, Or.inr (by omega)⟩
      obtain ⟨ihchain, ihsz, ihlast⟩ :=
        ih (i + 1) start (cs + 1) (by omega) hcs1
      have hlen : i + (b :: rest).length = i + 1 + rest.length := by
        simp [List.length_cons]; omega
      rw [hlen]
      exact ⟨ihchain, ihsz, ihlast⟩

/-! ### Translation client adapter (`translate_batch`, `extract_json`, `has_chinese`) -/

/-- The backtick character (written numerically for hygiene). -/
def tick : Char := Char.ofNat 96

/-- The loop of Python `content.split(stqqq)` for the three-backtick
separator: split on non-overlapping occurrences, left to right. -/
def splitTicksGo (cur : List Char) : List Char → List (List Char)
  | c1 :: c2 :: c3 :: rest =>
    if c1 = tick ∧ c2 = tick ∧ c3 = tick then
      cur.reverse :: splitTicksGo [] rest
    else splitTicksGo (c1 :: cur) (c2 :: c3 :: rest)
  | c :: rest => splitTicksGo (c :: cur) rest
  | [] => [cur.reverse]

def splitTicks (content : List Char) : List (List Char) :=
  splitTicksGo [] content

/-- Scanner for one candidate match of the regex
`\x7b[^\x7b\x7d]*(?:\x7b[^\x7b\x7d]*\x7d[^\x7b\x7d]*)*\x7d` starting just
after an opening brace: `inner = false` is the outer level (a closing brace
ends the match), `inner = true` is inside a nested one-level group (a second
opening brace kills the match, exactly as the regex backtracking does).
Returns the interior characters and the remainder after the closing
brace. -/
def braceScan : Bool → List Char → List Char → Option (List Char × List Char)
  | _, _, [] => none
  | false, acc, c :: rest =>
    if c = '}' then some (acc.reverse, rest)
    else if c = '{' then braceScan true ('{' :: acc) rest
    else braceScan false (c :: acc) rest
  | true, acc, c :: rest =>
    if c = '{' then none
    else if c = '}' then braceScan false ('}' :: acc) rest
    else braceScan true (c :: acc) rest

/-- `re.findall` of the brace-object pattern: scan left to right, restart
one character later on a failed candidate, resume after a successful match.
Fuel-indexed (fuel `= content.length` always suffices since every step
consumes at least one character). -/
def findAllBracesF : Nat → List Char → List (List Char)
  | 0, _ => []
  | _ + 1, [] => []
  | fuel + 1, c :: rest =>
    if c = '{' then
      match braceScan false [] rest with
      | some (mid, after) => ('{' :: (mid ++ ['}'])) :: findAllBracesF fuel after
      | none => findAllBracesF fuel rest
    else findAllBracesF fuel rest

/-- Python `max(matches, key=len)`: the first element of maximal length. -/
def pickLongest : List (List Char) → Option (List Char)
  | [] => none
  | m :: ms => some (ms.foldl (fun best x => if best.length < x.length then x else best) m)

def startsBrace : List Char → Bool
  | [] => false
  | c :: _ => c = '{'

def endsBrace (l : List Char) : Bool :=
  match l.reverse with
  | [] => false
  | c :: _ => c = '}'

/-- One iteration of the code-fence loop in `extract_json`:
strip the part, drop a leading `json` tag, and accept it only if it starts
with an opening and ends with a closing brace. -/
def ticksCandidate (p : List Char) : Option (List Char) :=
  let p1 := pstrip p
  let p2 := if startsWithList (str "json") p1 then pstrip (p1.drop 4) else p1
  if startsBrace p2 && endsBrace p2 then some p2 else none

def findTicksPart : List (List Char) → Option (List Char)
  | [] => none
  | p :: ps =>
    match ticksCandidate p with
    | some r => some r
    | none => findTicksPart ps

/-- `SuperSmartVTTTranslator.extract_json`: (1) accept the content whole if
it is brace-delimited, (2) otherwise try the parts of a code-fence split,
(3) otherwise take the longest regex match; `None` if nothing works. -/
def extract_json (content : List Char) : Option (List Char) :=
  if startsBrace content && endsBrace content then some content
  else
    let viaTicks : Option (List Char) :=
      if containsSub [tick, tick, tick] content then findTicksPart (splitTicks content)
      else none
    match viaTicks with
    | some r => some r
    | none => pickLongest (findAllBracesF content.length content)

/-- `SuperSmartVTTTranslator.has_chinese`: `re.search` for a CJK unified
ideograph. -/
def has_chinese (t : List Char) : Bool :=
  t.any fun c => decide (0x4e00 ≤ c.toNat) && decide (c.toNat ≤ 0x9fff)

/-- Decimal rendering of a natural number (Python `str(idx)` / f-string). -/
def natToCharsAux : Nat → Nat → List Char
  | 0, _ => []
  | fuel + 1, n =>
    if n < 10 then [Nat.digitChar n]
    else natToCharsAux fuel (n / 10) ++ [Nat.digitChar (n % 10)]

def natToChars (n : Nat) : List Char := natToCharsAux (n + 1) n

/-- Outcome of one call to the external oracle
(`self.client.chat.completions.create`): either the returned message
content, or a raised exception with its `str(e)` message. -/
inductive OracleResp where
  | content (s : List Char)
  | raise (msg : List Char)

/-- A parsed JSON object as the pipeline consumes it: a string-keyed map of
strings (`translated_dict.get`). -/
abbrev JDict := List Char → Option (List Char)

/-- The body of the `try` block of `translate_batch` for one attempt.
`loads` models `json.loads` restricted to the shape the pipeline uses.
An `Except.error (isJsonDecode, msg)` models a raised exception:
`isJsonDecode = true` is a `json.JSONDecodeError` (from `json.loads`),
`false` is any other exception carrying message `msg`. -/
def attemptOnce (loads : List Char → Option JDict) (texts : List (List Char))
    (resp : OracleResp) : Except (Bool × List Char) (List (List Char)) :=
  match resp with
  | .raise msg => .error (false, msg)
  | .content c =>
    match extract_json (pstrip c) with
    | none => .error (false, str "无法从响应中提取有效的 JSON")
    | some jc =>
      match loads jc with
      | none => .error (true, str "Expecting value")
      | some d =>
        let translations := (List.range texts.length).map fun idx =>
          (d (natToChars idx)).getD (texts.getD idx [])
        let chinese_count := (translations.filter has_chinese).length
        if 2 * chinese_count < translations.length then
          .error (false, str "翻译结果不包含足够的中文内容，可能翻译失败")
        else .ok translations

/-- The retry recursion of `translate_batch`.  The first component counts
the oracle calls made; the second is `some translations` on success and
`none` when the exception is re-raised.  `gas` is `max_retries -
retry_count`, which bounds the recursion depth (the retry branch requires
`retry_count < max_retries`). -/
def translateBatchGo (loads : List Char → Option JDict) (oracle : Nat → OracleResp)
    (texts : List (List Char)) (max_retries : Nat) :
    Nat → Nat → Nat × Option (List (List Char))
  | retry_count, 0 =>
    match attemptOnce loads texts (oracle retry_count) with
    | .ok ts => (1, some ts)
    | .error _ => (1, none)
  | retry_count, g + 1 =>
    match attemptOnce loads texts (oracle retry_count) with
    | .ok ts => (1, some ts)
    | .error e =>
      if decide (retry_count < max_retries) && (e.1 || containsSub (str "API") e.2) then
        let r := translateBatchGo loads oracle texts max_retries (retry_count + 1) g
        (r.1 + 1, r.2)
      else (1, none)

/-- `SuperSmartVTTTranslator.translate_batch`: `oracle k` is the outcome of
the call made at `retry_count = k`. -/
def translate_batch (loads : List Char → Option JDict) (oracle : Nat → OracleResp)
    (texts : List (List Char)) (retry_count max_retries : Nat) :
    Nat × Option (List (List Char)) :=
  translateBatchGo loads oracle texts max_retries retry_count (max_retries - retry_count)

/-- Any oracle whose every attempt fails with a retry-classified error —
a `json.JSONDecodeError` (first component `true`) or an exception whose
message contains `API` — exhausts the whole retry budget: one attempt per
`retry_count` from the current one up to `max_retries`. -/
theorem translateBatchGo_all_retryable (loads : List Char → Option JDict)
    (oracle : Nat → OracleResp) (texts : List (List Char)) (max_retries : Nat)
    (hbad : ∀ k, ∃ e, attemptOnce loads texts (oracle k) = Except.error e ∧
        (e.1 = true ∨ containsSub (str "API") e.2 = true)) :
    ∀ gas retry_count, gas = max_retries - retry_count →
      translateBatchGo loads oracle texts max_retries retry_count gas
        = (max_retries - retry_count + 1, none) := by
  intro gas
  induction gas with
  | zero =>
    intro rc hg
    obtain ⟨e, he, _⟩ := hbad rc
    simp [translateBatchGo, he]
    omega
  | succ g ih =>
    intro rc hg
    obtain ⟨e, he, hcl⟩ := hbad rc
    have hlt : rc < max_retries := by omega
    have hrec := ih (rc + 1) (by omega)
    have hcond : (decide (rc < max_retries)
        && (e.1 || containsSub (str "API") e.2)) = true := by
      rcases hcl with h | h <;> simp [hlt, h]
    simp [translateBatchGo, he, hcond, hrec]
    omega

/-- C2 (amended): for a mocked oracle whose every attempt fails in a
retry-classified way — an extractable payload that fails JSON parsing, or
a raised error whose message contains `API` — the adapter makes exactly
`max_retries + 1` attempts (the initial call plus `max_retries` retries)
and then raises; a response from which no JSON payload can be extracted at
all raises immediately on the first attempt, without any retry, because the
raised `ValueError` is not a `JSONDecodeError` and its message does not
contain `API`. -/
theorem translate_batch_retry_policy (loads : List Char → Option JDict)
    (oracle oracleA oracle2 : Nat → OracleResp) (texts : List (List Char))
    (max_retries : Nat) (c2 : List Char) (msgs : Nat → List Char)
    (hbad : ∀ k, ∃ c j, oracle k = OracleResp.content c ∧
        extract_json (pstrip c) = some j ∧ loads j = none)
    (hA : ∀ k, oracleA k = OracleResp.raise (msgs k) ∧
        containsSub (str "API") (msgs k) = true)
    (h2 : oracle2 0 = OracleResp.content c2)
    (h2e : extract_json (pstrip c2) = none) :
    translate_batch loads oracle texts 0 max_retries = (max_retries + 1, none) ∧
    translate_batch loads oracleA texts 0 max_retries = (max_retries + 1, none) ∧
    translate_batch loads oracle2 texts 0 max_retries = (1, none) := by
  refine ⟨?_, ?_, ?_⟩
  · have hbad' : ∀ k, ∃ e, attemptOnce loads texts (oracle k) = Except.error e ∧
        (e.1 = true ∨ containsSub (str "API") e.2 = true) := by
      intro k
      obtain ⟨c, j, hc, hj, hl⟩ := hbad k
      exact ⟨(true, str "Expecting value"),
        by simp [attemptOnce, hc, hj, hl], Or.inl rfl⟩
    have h := translateBatchGo_all_retryable loads oracle texts max_retries hbad'
      (max_retries - 0) 0 rfl
    simpa [translate_batch] using h
  · have hbad' : ∀ k, ∃ e, attemptOnce loads texts (oracleA k) = Except.error e ∧
        (e.1 = true ∨ containsSub (str "API") e.2 = true) := by
      intro k
      exact ⟨(false, msgs k), by simp [attemptOnce, (hA k).1], Or.inr (hA k).2⟩
    have h := translateBatchGo_all_retryable loads oracleA texts max_retries hbad'
      (max_retries - 0) 0 rfl
    simpa [translate_batch] using h
  · have hapi : containsSub (str "API") (str "无法从响应中提取有效的 JSON") = false := by
      decide
    unfold translate_batch
    cases hg : max_retries - 0 with
    | zero => simp [translateBatchGo, h2, attemptOnce, h2e, hapi]
    | succ g => simp [translateBatchGo, h2, attemptOnce, h2e, hapi]

def loadsNone : List Char → Option JDict := fun _ => none

def oracleBad : Nat → OracleResp := fun _ => OracleResp.content (str "\x7bbad\x7d")

def oracleAPIErr : Nat → OracleResp := fun _ => OracleResp.raise (str "API error 500")

def oracleNoJson : Nat → OracleResp := fun _ => OracleResp.content (str "no json here")

/-- Witness for C2 (amended) at concrete inputs. -/
theorem translate_batch_retry_policy_witness :
    translate_batch loadsNone oracleBad [str "hello"] 0 3 = (3 + 1, none) ∧
    translate_batch loadsNone oracleAPIErr [str "hello"] 0 3 = (3 + 1, none) ∧
    translate_batch loadsNone oracleNoJson [str "hello"] 0 3 = (1, none) :=
  translate_batch_retry_policy loadsNone oracleBad oracleAPIErr oracleNoJson
    [str "hello"] 3 (str "no json here") (fun _ => str "API error 500")
    (fun _ => ⟨str "\x7bbad\x7d", str "\x7bbad\x7d", rfl, by decide, rfl⟩)
    (fun _ => ⟨rfl, show containsSub (str "API") (str "API error 500") = true by decide⟩)
    rfl (by decide)

/-- C2 counterexample: with `max_retries = 3` (the default) a mocked oracle
that always returns malformed JSON causes 4 adapter attempts — the initial
call plus 3 retries — before the failure is raised, not exactly
`max_retries = 3` attempts as claimed. -/
theorem translate_batch_retry_count_counterexample :
    (translate_batch loadsNone oracleBad [str "hello"] 0 3).1 = 4 ∧ (4 : Nat) ≠ 3 :=
  ⟨rfl, by decide⟩

def sampleLoadsEn : List Char → Option JDict :=
  fun _ => some fun key => if key = str "0" then some (str "hello") else none

def sampleLoads : List Char → Option JDict :=
  fun _ => some fun key => if key = str "0" then some (str "你好") else none

def sampleOracle : Nat → OracleResp := fun _ => OracleResp.content (str "\x7bk\x7d")

/-- C3 counterexample: a syntactically valid oracle response whose entries
contain no target-script character is rejected after a single adapter
attempt (the plausibility `ValueError` is not retried), while a malformed
response under the same settings is attempted 4 times — so the plausibility
gate does not fail under the same retry policy as a malformed response, as
the claim asserts. -/
theorem translate_batch_plausibility_counterexample :
    (translate_batch sampleLoadsEn sampleOracle [str "hi"] 0 3).1 = 1 ∧
    (translate_batch loadsNone sampleOracle [str "hi"] 0 3).1 = 4 ∧
    (1 : Nat) ≠ 4 :=
  ⟨rfl, rfl, by decide⟩

/-- C3 (amended): a syntactically valid response in which fewer than half
of the produced entries contain a Chinese character is rejected as a
translation failure, but it raises immediately on the failing attempt —
like an extraction failure and unlike a JSON-decode failure, it is never
retried, whatever `retry_count` and `max_retries` are. -/
theorem translate_batch_plausibility_no_retry (loads : List Char → Option JDict)
    (oracle : Nat → OracleResp) (texts : List (List Char))
    (retry_count max_retries : Nat) (c j : List Char) (d : JDict)
    (h1 : oracle retry_count = OracleResp.content c)
    (h2 : extract_json (pstrip c) = some j) (h3 : loads j = some d)
    (h4 : 2 * (((List.range texts.length).map fun idx =>
        (d (natToChars idx)).getD (texts.getD idx [])).filter has_chinese).length
        < texts.length) :
    translate_batch loads oracle texts retry_count max_retries = (1, none) := by
  have hapi : containsSub (str "API")
      (str "翻译结果不包含足够的中文内容，可能翻译失败") = false := by decide
  unfold translate_batch
  cases hg : max_retries - retry_count with
  | zero =>
    simp only [translateBatchGo, h1, attemptOnce, h2, h3]
    rw [if_pos (by simpa using h4)]
  | succ g =>
    simp only [translateBatchGo, h1, attemptOnce, h2, h3]
    rw [if_pos (by simpa using h4)]
    simp [hapi]

/-- Witness for C3 (amended) at concrete inputs. -/
theorem translate_batch_plausibility_no_retry_witness :
    translate_batch sampleLoadsEn sampleOracle [str "hi"] 0 3 = (1, none) :=
  translate_batch_plausibility_no_retry sampleLoadsEn sampleOracle [str "hi"] 0 3
    (str "\x7bk\x7d") (str "\x7bk\x7d")
    (fun key => if key = str "0" then some (str "hello") else none)
    rfl (by decide) rfl (by decide)

theorem attemptOnce_ok (loads : List Char → Option JDict) (texts : List (List Char))
    (resp : OracleResp) (res : List (List Char))
    (h : attemptOnce loads texts resp = Except.ok res) :
    ∃ c j d, resp = OracleResp.content c ∧ extract_json (pstrip c) = some j ∧
      loads j = some d ∧
      res = (List.range texts.length).map fun idx =>
        (d (natToChars idx)).getD (texts.getD idx []) := by
  cases resp with
  | raise msg => simp [attemptOnce] at h
  | content c =>
    simp only [attemptOnce] at h
    split at h
    · simp at h
    · rename_i j hj
      split at h
      · simp at h
      · rename_i d hd
        split at h
        · simp at h
        · exact ⟨c, j, d, rfl, hj, hd, by simpa using h.symm⟩

theorem translateBatchGo_some (loads : List Char → Option JDict)
    (oracle : Nat → OracleResp) (texts : List (List Char)) (max_retries : Nat) :
    ∀ gas retry_count res,
      (translateBatchGo loads oracle texts max_retries retry_count gas).2 = some res →
      ∃ k, attemptOnce loads texts (oracle k) = Except.ok res := by
  intro gas
  induction gas with
  | zero =>
    intro rc res h
    simp only [translateBatchGo] at h
    split at h
    · rename_i ts hts
      simp at h
      exact ⟨rc, h ▸ hts⟩
    · simp at h
  | succ g ih =>
    intro rc res h
    unfold translateBatchGo at h
    split at h
    · rename_i ts hts
      simp at h
      exact ⟨rc, h ▸ hts⟩
    · split at h
      · exact ih (rc + 1) res (by simpa using h)
      · simp at h

/-- C4: whenever `translate_batch` returns successfully, the result has the
same length/order as the input: position `i` holds the value of key
`str(i)` in the JSON object parsed from the successful attempt's response,
falling back to the untranslated `texts[i]` when that key is missing. -/
theorem translate_batch_success_shape (loads : List Char → Option JDict)
    (oracle : Nat → OracleResp) (texts : List (List Char))
    (retry_count max_retries : Nat) (res : List (List Char))
    (h : (translate_batch loads oracle texts retry_count max_retries).2 = some res) :
    res.length = texts.length ∧
    ∃ k c j d, oracle k = OracleResp.content c ∧ extract_json (pstrip c) = some j ∧
      loads j = some d ∧
      res = (List.range texts.length).map fun idx =>
        (d (natToChars idx)).getD (texts.getD idx []) := by
  obtain ⟨k, hk⟩ := translateBatchGo_some loads oracle texts max_retries
    (max_retries - retry_count) retry_count res h
  obtain ⟨c, j, d, hresp, he, hl, hres⟩ := attemptOnce_ok loads texts (oracle k) res hk
  constructor
  · rw [hres]; simp
  · exact ⟨k, c, j, d, hresp, he, hl, hres⟩

/-- Witness for C4 at a concrete successful run. -/
theorem translate_batch_success_shape_witness :
    (translate_batch sampleLoads sampleOracle [str "hi"] 0 3).2 = some [str "你好"] ∧
    ([str "你好"] : List (List Char)).length = ([str "hi"] : List (List Char)).length ∧
    (∃ k c j d, sampleOracle k = OracleResp.content c ∧
      extract_json (pstrip c) = some j ∧ sampleLoads j = some d ∧
      [str "你好"] = (List.range ([str "hi"] : List (List Char)).length).map fun idx =>
        (d (natToChars idx)).getD (([str "hi"] : List (List Char)).getD idx [])) :=
  ⟨rfl,
    (translate_batch_success_shape sampleLoads sampleOracle [str "hi"] 0 3 [str "你好"] rfl).1,
    (translate_batch_success_shape sampleLoads sampleOracle [str "hi"] 0 3 [str "你好"] rfl).2⟩

/-! ### Checkpointed pipeline orchestrator (`translate_vtt_super_smart`) -/

/-- Python truthiness of `block.get('translated')`: a block is still
untranslated when the field is absent (`None`) or the empty string. -/
def untranslatedB (b : OBlock) : Bool :=
  match b.translated with
  | none => true
  | some t => t.isEmpty

/-- `sum(1 for b in blocks if b.get('translated'))`, the progress count. -/
def translatedCount (blocks : List OBlock) : Nat :=
  (blocks.filter fun b => ! untranslatedB b).length

/-- The per-batch filter of the orchestrator loop: the (absolute index,
source text) pairs of the blocks of batch `[s, e)` that still lack a truthy
translation, in order (`to_translate_indices` / `to_translate`). -/
def toTranslate (blocks : List OBlock) (s e : Nat) : List (Nat × List Char) :=
  ((blocks.drop s).take (e - s)).enum.filterMap fun p =>
    if untranslatedB p.2 then some (s + p.1, p.2.text) else none

/-- `blocks[idx]['translated'] = t`. -/
def setTranslatedAt : List OBlock → Nat → List Char → List OBlock
  | [], _, _ => []
  | b :: bs, 0, t => { b with translated := some t } :: bs
  | b :: bs, n + 1, t => b :: setTranslatedAt bs n t

/-- `for idx, translation in zip(to_translate_indices, translations)`:
pairwise updates, stopping at the shorter list, exactly like `zip`. -/
def applyTranslations (blocks : List OBlock) :
    List Nat → List (List Char) → List OBlock
  | [], _ => blocks
  | _ :: _, [] => blocks
  | i :: is, t :: ts => applyTranslations (setTranslatedAt blocks i t) is ts

/-- The progress-file contents written by `save_progress` (the wall-clock
timestamp is outside the model and `total_blocks` is `blocks.length`). -/
structure Checkpoint where
  current_batch : Nat
  blocks : List OBlock
  batches : List (Nat × Nat)
deriving Repr, DecidableEq

/-- Result of the batch loop: final blocks, progress-file state, the trace
of adapter calls (batch index, absolute block indices, texts sent) and
whether the loop completed (`false`: a batch raised after retries and the
function returned `None`). -/
structure LoopResult where
  blocks : List OBlock
  checkpoint : Option Checkpoint
  calls : List (Nat × List Nat × List (List Char))
  ok : Bool
deriving DecidableEq

/-- The `for batch_idx in range(start_batch, total_batches)` loop of
`translate_vtt_super_smart`.  `tr k texts` is the outcome of the `k`-th
`translate_batch` call of this run (`none` models the exception escaping
after retries); `pending` carries `(batch_idx, start_idx, end_idx)` for the
batches still to process. -/
def runLoop (tr : Nat → List (List Char) → Option (List (List Char)))
    (allBatches : List (Nat × Nat)) :
    List OBlock → Option Checkpoint → Nat → List (Nat × Nat × Nat) → LoopResult
  | blocks, progress, _, [] => ⟨blocks, progress, [], true⟩
  | blocks, progress, callIdx, (bidx, s, e) :: rest =>
    let todo := toTranslate blocks s e
    if todo.isEmpty then runLoop tr allBatches blocks progress callIdx rest
    else
      match tr callIdx (todo.map Prod.snd) with
      | none => ⟨blocks, progress,
          [(bidx, todo.map Prod.fst, todo.map Prod.snd)], false⟩
      | some ts =>
        let blocks1 := applyTranslations blocks (todo.map Prod.fst) ts
        let progress1 : Option Checkpoint := some ⟨bidx + 1, blocks1, allBatches⟩
        let r := runLoop tr allBatches blocks1 progress1 (callIdx + 1) rest
        ⟨r.blocks, r.checkpoint,
          (bidx, todo.map Prod.fst, todo.map Prod.snd) :: r.calls, r.ok⟩

/-- `block.get('translated') or block['text']` in the final assembly. -/
def outputText (b : OBlock) : List Char :=
  match b.translated with
  | some t => if t.isEmpty then b.text else t
  | none => b.text

/-- A block of the final output document. -/
structure OutBlock where
  start_time : List Char
  end_time : List Char
  text : List Char
deriving Repr, DecidableEq

/-- The `output_blocks` assembly loop before `write_subtitle`. -/
def assembleOutput (blocks : List OBlock) : List OutBlock :=
  blocks.map fun b => ⟨b.start_time, b.end_time, outputText b⟩

/-- The pending batches `(batch_idx, start_idx, end_idx)` of
`range(start_batch, total_batches)`. -/
def pendingFrom (batches : List (Nat × Nat)) (k : Nat) : List (Nat × Nat × Nat) :=
  (batches.enum.drop k).map fun p => (p.1, p.2)

/-- Observable outcome of one orchestrator run: the final serialized
output (`none` when the run failed), the progress file on disk afterwards
and the adapter call trace. -/
structure JobResult where
  output : Option (List OutBlock)
  checkpoint : Option Checkpoint
  calls : List (Nat × List Nat × List (List Char))
deriving DecidableEq

/-- `translate_vtt_super_smart` resumed from a loaded checkpoint `cp`
(`resume=True`, progress file present): run the loop from
`cp.current_batch`; on success write the assembled document and delete the
progress file; on failure return `None` leaving the progress file exactly
as last saved. -/
def finishJob (r : LoopResult) : JobResult :=
  if r.ok then ⟨some (assembleOutput r.blocks), none, r.calls⟩
  else ⟨none, r.checkpoint, r.calls⟩

def translate_vtt_super_smart_resume
    (tr : Nat → List (List Char) → Option (List (List Char)))
    (cp : Checkpoint) : JobResult :=
  finishJob (runLoop tr cp.batches cp.blocks (some cp) 0
    (pendingFrom cp.batches cp.current_batch))

theorem setTranslatedAt_length (blocks : List OBlock) (i : Nat) (t : List Char) :
    (setTranslatedAt blocks i t).length = blocks.length := by
  induction blocks generalizing i with
  | nil => rfl
  | cons b bs ih =>
    cases i with
    | zero => rfl
    | succ n => simp [setTranslatedAt, ih]

theorem setTranslatedAt_getElem?_ne (blocks : List OBlock) (i m : Nat) (t : List Char)
    (h : i ≠ m) : (setTranslatedAt blocks i t)[m]? = blocks[m]? := by
  induction blocks generalizing i m with
  | nil => rfl
  | cons b bs ih =>
    cases i with
    | zero =>
      cases m with
      | zero => omega
      | succ m' => simp [setTranslatedAt]
    | succ n =>
      cases m with
      | zero => simp [setTranslatedAt]
      | succ m' => simp [setTranslatedAt, ih n m' (by omega)]

theorem applyTranslations_length (blocks : List OBlock) (is : List Nat)
    (ts : List (List Char)) :
    (applyTranslations blocks is ts).length = blocks.length := by
  induction is generalizing blocks ts with
  | nil => rfl
  | cons i is ih =>
    cases ts with
    | nil => rfl
    | cons t ts =>
      rw [show applyTranslations blocks (i :: is) (t :: ts)
          = applyTranslations (setTranslatedAt blocks i t) is ts from rfl,
        ih (setTranslatedAt blocks i t) ts, setTranslatedAt_length]

theorem applyTranslations_getElem?_notMem (blocks : List OBlock) (is : List Nat)
    (ts : List (List Char)) (m : Nat) (h : m ∉ is) :
    (applyTranslations blocks is ts)[m]? = blocks[m]? := by
  induction is generalizing blocks ts with
  | nil => rfl
  | cons i is ih =>
    cases ts with
    | nil => rfl
    | cons t ts =>
      have h1 : i ≠ m := fun he => h (he ▸ List.mem_cons_self i is)
      have h2 : m ∉ is := fun hm => h (List.mem_cons_of_mem _ hm)
      rw [show applyTranslations blocks (i :: is) (t :: ts)
          = applyTranslations (setTranslatedAt blocks i t) is ts from rfl,
        ih (setTranslatedAt blocks i t) ts h2, setTranslatedAt_getElem?_ne _ _ _ _ h1]

theorem toTranslate_mem (blocks : List OBlock) (s e : Nat) (p : Nat × List Char)
    (hp : p ∈ toTranslate blocks s e) :
    s ≤ p.1 ∧ p.1 < e ∧
    ∃ b, blocks[p.1]? = some b ∧ untranslatedB b = true ∧ p.2 = b.text := by
  unfold toTranslate at hp
  rw [List.mem_filterMap] at hp
  obtain ⟨⟨i, b⟩, hmem, hf⟩ := hp
  rw [List.mem_iff_getElem?] at hmem
  obtain ⟨n, hn⟩ := hmem
  rw [List.getElem?_enum] at hn
  cases hx : ((blocks.drop s).take (e - s))[n]? with
  | none => rw [hx] at hn; simp at hn
  | some b' =>
    rw [hx] at hn
    simp only [Option.map_some'] at hn
    obtain ⟨hni, hbb⟩ : n = i ∧ b' = b := by
      have := Option.some.inj hn
      exact ⟨congrArg Prod.fst this, congrArg Prod.snd this⟩
    subst hni; subst hbb
    rw [List.getElem?_take] at hx
    split at hx
    · rename_i hlt
      rw [List.getElem?_drop] at hx
      split at hf
      · rename_i hunb
        have hp' : p = (s + n, b'.text) := by
          exact (Option.some.injEq _ _ ▸ hf).symm
        subst hp'
        exact ⟨by omega, by omega, b', hx, hunb, rfl⟩
      · simp at hf
    · simp at hx

theorem toTranslate_mem_intro (blocks : List OBlock) (s e m : Nat) (b : OBlock)
    (hm : blocks[m]? = some b) (hs : s ≤ m) (hme : m < e)
    (hb : untranslatedB b = true) :
    (m, b.text) ∈ toTranslate blocks s e := by
  unfold toTranslate
  rw [List.mem_filterMap]
  refine ⟨(m - s, b), ?_, ?_⟩
  · rw [List.mem_iff_getElem?]
    refine ⟨m - s, ?_⟩
    rw [List.getElem?_enum, List.getElem?_take]
    rw [if_pos (by omega)]
    rw [List.getElem?_drop]
    rw [show s + (m - s) = m by omega, hm]
    rfl
  · simp only [hb, if_pos]
    rw [show s + (m - s) = m by omega]

theorem toTranslate_congr (blocks blocks0 : List OBlock) (s e : Nat)
    (hagree : ∀ m, s ≤ m → m < e → blocks[m]? = blocks0[m]?) :
    toTranslate blocks s e = toTranslate blocks0 s e := by
  have hsub : (blocks.drop s).take (e - s) = (blocks0.drop s).take (e - s) := by
    apply List.ext_getElem?
    intro n
    rw [List.getElem?_take, List.getElem?_take, List.getElem?_drop, List.getElem?_drop]
    by_cases hn : n < e - s
    · rw [if_pos hn, if_pos hn]
      exact hagree (s + n) (by omega) (by omega)
    · rw [if_neg hn, if_neg hn]
  unfold toTranslate
  rw [hsub]

theorem pendingFrom_eq_cons (batches : List (Nat × Nat)) (k : Nat)
    (hk : k < batches.length) :
    pendingFrom batches k =
      (k, batches.get ⟨k, hk⟩) :: pendingFrom batches (k + 1) := by
  unfold pendingFrom
  have h1 : k < batches.enum.length := by simpa using hk
  rw [List.drop_eq_getElem_cons h1]
  simp [List.getElem_enum]

theorem pendingFrom_eq_nil (batches : List (Nat × Nat)) (k : Nat)
    (hk : batches.length ≤ k) : pendingFrom batches k = [] := by
  unfold pendingFrom
  rw [List.drop_eq_nil_of_le (by simpa using hk)]
  rfl

theorem runLoop_cons_skip (tr : Nat → List (List Char) → Option (List (List Char)))
    (ab : List (Nat × Nat)) (blocks : List OBlock) (progress : Option Checkpoint)
    (callIdx bidx s e : Nat) (rest : List (Nat × Nat × Nat))
    (hemp : (toTranslate blocks s e).isEmpty = true) :
    runLoop tr ab blocks progress callIdx ((bidx, s, e) :: rest) =
      runLoop tr ab blocks progress callIdx rest := by
  simp [runLoop, hemp]

theorem runLoop_cons_fail (tr : Nat → List (List Char) → Option (List (List Char)))
    (ab : List (Nat × Nat)) (blocks : List OBlock) (progress : Option Checkpoint)
    (callIdx bidx s e : Nat) (rest : List (Nat × Nat × Nat))
    (hemp : (toTranslate blocks s e).isEmpty = false)
    (htr : tr callIdx ((toTranslate blocks s e).map Prod.snd) = none) :
    runLoop tr ab blocks progress callIdx ((bidx, s, e) :: rest) =
      ⟨blocks, progress,
        [(bidx, (toTranslate blocks s e).map Prod.fst,
          (toTranslate blocks s e).map Prod.snd)], false⟩ := by
  simp [runLoop, hemp, htr]

theorem runLoop_cons_success (tr : Nat → List (List Char) → Option (List (List Char)))
    (ab : List (Nat × Nat)) (blocks : List OBlock) (progress : Option Checkpoint)
    (callIdx bidx s e : Nat) (rest : List (Nat × Nat × Nat)) (ts : List (List Char))
    (hemp : (toTranslate blocks s e).isEmpty = false)
    (htr : tr callIdx ((toTranslate blocks s e).map Prod.snd) = some ts) :
    runLoop tr ab blocks progress callIdx ((bidx, s, e) :: rest) =
      ⟨(runLoop tr ab (applyTranslations blocks ((toTranslate blocks s e).map Prod.fst) ts)
          (some ⟨bidx + 1,
            applyTranslations blocks ((toTranslate blocks s e).map Prod.fst) ts, ab⟩)
          (callIdx + 1) rest).blocks,
        (runLoop tr ab (applyTranslations blocks ((toTranslate blocks s e).map Prod.fst) ts)
          (some ⟨bidx + 1,
            applyTranslations blocks ((toTranslate blocks s e).map Prod.fst) ts, ab⟩)
          (callIdx + 1) rest).checkpoint,
        (bidx, (toTranslate blocks s e).map Prod.fst,
          (toTranslate blocks s e).map Prod.snd) ::
        (runLoop tr ab (applyTranslations blocks ((toTranslate blocks s e).map Prod.fst) ts)
          (some ⟨bidx + 1,
            applyTranslations blocks ((toTranslate blocks s e).map Prod.fst) ts, ab⟩)
          (callIdx + 1) rest).calls,
        (runLoop tr ab (applyTranslations blocks ((toTranslate blocks s e).map Prod.fst) ts)
          (some ⟨bidx + 1,
            applyTranslations blocks ((toTranslate blocks s e).map Prod.fst) ts, ab⟩)
          (callIdx + 1) rest).ok⟩ := by
  simp [runLoop, hemp, htr]

theorem runLoop_calls_spec
    (tr : Nat → List (List Char) → Option (List (List Char)))
    (batches : List (Nat × Nat)) (blocks0 : List OBlock)
    (hord : batches.Pairwise fun b1 b2 => b1.2 ≤ b2.1) :
    ∀ (d j : Nat) (blocks : List OBlock) (progress : Option Checkpoint) (callIdx : Nat),
      batches.length - j ≤ d →
      (∀ i si ei, j ≤ i → batches[i]? = some (si, ei) →
        ∀ m, si ≤ m → m < ei → blocks[m]? = blocks0[m]?) →
      ∀ call ∈ (runLoop tr batches blocks progress callIdx (pendingFrom batches j)).calls,
        j ≤ call.1 ∧ call.1 < batches.length ∧
        ∃ si ei, batches[call.1]? = some (si, ei) ∧
          call.2.1 = (toTranslate blocks0 si ei).map Prod.fst ∧
          call.2.2 = (toTranslate blocks0 si ei).map Prod.snd ∧
          toTranslate blocks0 si ei ≠ [] := by
  intro d
  induction d with
  | zero =>
    intro j blocks progress callIdx hd hagree call hcall
    rw [pendingFrom_eq_nil batches j (by omega)] at hcall
    simp [runLoop] at hcall
  | succ d ih =>
    intro j blocks progress callIdx hd hagree call hcall
    by_cases hj : j < batches.length
    · rw [pendingFrom_eq_cons batches j hj] at hcall
      rcases hbj : batches.get ⟨j, hj⟩ with ⟨s, e⟩
      have hbj? : batches[j]? = some (s, e) := by
        rw [List.getElem?_eq_getElem hj]
        exact congrArg some hbj
      rw [hbj] at hcall
      have htd : toTranslate blocks s e = toTranslate blocks0 s e :=
        toTranslate_congr blocks blocks0 s e
          (fun m h1 h2 => hagree j s e (le_refl j) hbj? m h1 h2)
      by_cases hemp : (toTranslate blocks s e).isEmpty
      · rw [runLoop_cons_skip tr batches blocks progress callIdx j s e _ hemp] at hcall
        have h := ih (j + 1) blocks progress callIdx (by omega)
          (fun i si ei hi hbi m h1 h2 => hagree i si ei (by omega) hbi m h1 h2)
          call hcall
        exact ⟨by omega, h.2⟩
      · rw [Bool.not_eq_true] at hemp
        cases htr : tr callIdx ((toTranslate blocks s e).map Prod.snd) with
        | none =>
          rw [runLoop_cons_fail tr batches blocks progress callIdx j s e _ hemp htr]
            at hcall
          simp only [List.mem_singleton] at hcall
          subst hcall
          refine ⟨le_refl j, hj, s, e, hbj?, by rw [htd], by rw [htd], ?_⟩
          rw [← htd]
          exact fun hnil => by rw [hnil] at hemp; simp at hemp
        | some ts =>
          rw [runLoop_cons_success tr batches blocks progress callIdx j s e _ ts
            hemp htr] at hcall
          simp only [List.mem_cons] at hcall
          rcases hcall with rfl | hcall
          · refine ⟨le_refl j, hj, s, e, hbj?, by rw [htd], by rw [htd], ?_⟩
            rw [← htd]
            exact fun hnil => by rw [hnil] at hemp; simp at hemp
          · have hagree1 : ∀ i si ei, j + 1 ≤ i → batches[i]? = some (si, ei) →
                ∀ m, si ≤ m → m < ei →
                (applyTranslations blocks ((toTranslate blocks s e).map Prod.fst) ts)[m]?
                  = blocks0[m]? := by
              intro i si ei hi hbi m h1 h2
              have hi' : i < batches.length := by
                rcases List.getElem?_eq_some.mp hbi with ⟨h, _⟩
                exact h
              have hpair : (batches.get ⟨j, hj⟩).2 ≤ (batches.get ⟨i, hi'⟩).1 :=
                List.pairwise_iff_getElem.mp hord j i hj hi' (by omega)
              have hbi' : batches.get ⟨i, hi'⟩ = (si, ei) := by
                rcases List.getElem?_eq_some.mp hbi with ⟨h, hh⟩
                exact hh
              rw [hbj, hbi'] at hpair
              have hnotmem : m ∉ (toTranslate blocks s e).map Prod.fst := by
                intro hmem
                rcases List.mem_map.mp hmem with ⟨p, hp, hpm⟩
                have := toTranslate_mem blocks s e p hp
                simp only at hpair
                omega
              rw [applyTranslations_getElem?_notMem _ _ _ _ hnotmem]
              exact hagree i si ei (by omega) hbi m h1 h2
            have h := ih (j + 1)
              (applyTranslations blocks ((toTranslate blocks s e).map Prod.fst) ts)
              (some ⟨j + 1,
                applyTranslations blocks ((toTranslate blocks s e).map Prod.fst) ts,
                batches⟩)
              (callIdx + 1) (by omega) hagree1 call hcall
            exact ⟨by omega, h.2⟩
    · rw [pendingFrom_eq_nil batches j (by omega)] at hcall
      simp [runLoop] at hcall

/-- C1: for every job resumed from a checkpoint in which the first
`k = current_batch` of the `n` stored batches are resolved, the
orchestrator issues adapter calls only for batches `k..n-1`; each call
sends exactly the (indices and) source texts of the blocks of its batch
whose `translated` field is still unset at resume time, so a batch all of
whose blocks are already translated triggers no adapter call, and no
already-resolved block is ever re-sent to the oracle. -/
theorem resume_translates_only_unresolved
    (tr : Nat → List (List Char) → Option (List (List Char)))
    (cp : Checkpoint)
    (hord : cp.batches.Pairwise fun b1 b2 => b1.2 ≤ b2.1)
    (_hres : ∀ b ∈ cp.batches.take cp.current_batch,
      toTranslate cp.blocks b.1 b.2 = []) :
    ∀ call ∈ (translate_vtt_super_smart_resume tr cp).calls,
      cp.current_batch ≤ call.1 ∧ call.1 < cp.batches.length ∧
      ∃ si ei, cp.batches[call.1]? = some (si, ei) ∧
        call.2.1 = (toTranslate cp.blocks si ei).map Prod.fst ∧
        call.2.2 = (toTranslate cp.blocks si ei).map Prod.snd ∧
        toTranslate cp.blocks si ei ≠ [] ∧
        ∀ m ∈ call.2.1, si ≤ m ∧ m < ei ∧
          ∃ b, cp.blocks[m]? = some b ∧ untranslatedB b = true := by
  intro call hcall
  have hfin : ∀ r : LoopResult, (finishJob r).calls = r.calls := by
    intro r; unfold finishJob; split <;> rfl
  have hcalls : (translate_vtt_super_smart_resume tr cp).calls =
      (runLoop tr cp.batches cp.blocks (some cp) 0
        (pendingFrom cp.batches cp.current_batch)).calls := by
    unfold translate_vtt_super_smart_resume
    exact hfin _
  rw [hcalls] at hcall
  have h := runLoop_calls_spec tr cp.batches cp.blocks hord
    cp.batches.length cp.current_batch cp.blocks (some cp) 0 (by omega)
    (fun _ _ _ _ _ m _ _ => rfl) call hcall
  obtain ⟨h1, h2, si, ei, h3, h4, h5, h6⟩ := h
  refine ⟨h1, h2, si, ei, h3, h4, h5, h6, ?_⟩
  intro m hm
  rw [h4] at hm
  rcases List.mem_map.mp hm with ⟨p, hp, hpm⟩
  obtain ⟨ha, hb, b, hb1, hb2, _⟩ := toTranslate_mem cp.blocks si ei p hp
  subst hpm
  exact ⟨ha, hb, b, hb1, hb2⟩

def wCp : Checkpoint :=
  ⟨1, [⟨str "1", str "2", str "a", some (str "好")⟩,
       ⟨str "3", str "4", str "b", none⟩], [(0, 1), (1, 2)]⟩

def wTr : Nat → List (List Char) → Option (List (List Char)) := fun _ ts => some ts

/-- Witness for C1 at a concrete resumed checkpoint (1 of 2 batches
resolved). -/
theorem resume_translates_only_unresolved_witness :
    (wCp.batches.Pairwise fun b1 b2 => b1.2 ≤ b2.1) ∧
    (∀ b ∈ wCp.batches.take wCp.current_batch,
      toTranslate wCp.blocks b.1 b.2 = []) ∧
    ∀ call ∈ (translate_vtt_super_smart_resume wTr wCp).calls,
      wCp.current_batch ≤ call.1 ∧ call.1 < wCp.batches.length ∧
      ∃ si ei, wCp.batches[call.1]? = some (si, ei) ∧
        call.2.1 = (toTranslate wCp.blocks si ei).map Prod.fst ∧
        call.2.2 = (toTranslate wCp.blocks si ei).map Prod.snd ∧
        toTranslate wCp.blocks si ei ≠ [] ∧
        ∀ m ∈ call.2.1, si ≤ m ∧ m < ei ∧
          ∃ b, wCp.blocks[m]? = some b ∧ untranslatedB b = true :=
  ⟨by decide, by decide,
    resume_translates_only_unresolved wTr wCp (by decide) (by decide)⟩

theorem runLoop_ok_then_fail (tr : Nat → List (List Char) → Option (List (List Char)))
    (ab : List (Nat × Nat)) :
    ∀ (p1 : List (Nat × Nat × Nat)) (bidx s e : Nat) (rest : List (Nat × Nat × Nat))
      (blocks : List OBlock) (progress : Option Checkpoint) (callIdx : Nat),
      (runLoop tr ab blocks progress callIdx p1).ok = true →
      (toTranslate (runLoop tr ab blocks progress callIdx p1).blocks s e).isEmpty
        = false →
      tr (callIdx + (runLoop tr ab blocks progress callIdx p1).calls.length)
        ((toTranslate (runLoop tr ab blocks progress callIdx p1).blocks s e).map
          Prod.snd) = none →
      runLoop tr ab blocks progress callIdx (p1 ++ (bidx, s, e) :: rest) =
        ⟨(runLoop tr ab blocks progress callIdx p1).blocks,
         (runLoop tr ab blocks progress callIdx p1).checkpoint,
         (runLoop tr ab blocks progress callIdx p1).calls ++
           [(bidx,
             (toTranslate (runLoop tr ab blocks progress callIdx p1).blocks s e).map
               Prod.fst,
             (toTranslate (runLoop tr ab blocks progress callIdx p1).blocks s e).map
               Prod.snd)], false⟩ := by
  intro p1
  induction p1 with
  | nil =>
    intro bidx s e rest blocks progress callIdx _ hne hfail
    rw [List.nil_append]
    exact runLoop_cons_fail tr ab blocks progress callIdx bidx s e rest hne hfail
  | cons hd p1 ih =>
    intro bidx s e rest blocks progress callIdx hok hne hfail
    rcases hd with ⟨bidx', s', e'⟩
    by_cases hemp : (toTranslate blocks s' e').isEmpty
    · rw [runLoop_cons_skip tr ab blocks progress callIdx bidx' s' e' p1 hemp] at hok hne hfail
      rw [List.cons_append,
        runLoop_cons_skip tr ab blocks progress callIdx bidx' s' e'
          (p1 ++ (bidx, s, e) :: rest) hemp,
        runLoop_cons_skip tr ab blocks progress callIdx bidx' s' e' p1 hemp]
      exact ih bidx s e rest blocks progress callIdx hok hne hfail
    · rw [Bool.not_eq_true] at hemp
      cases htr : tr callIdx ((toTranslate blocks s' e').map Prod.snd) with
      | none =>
        rw [runLoop_cons_fail tr ab blocks progress callIdx bidx' s' e' p1 hemp htr] at hok
        simp at hok
      | some ts =>
        rw [runLoop_cons_success tr ab blocks progress callIdx bidx' s' e' p1 ts
          hemp htr] at hok hne hfail
        rw [List.cons_append,
          runLoop_cons_success tr ab blocks progress callIdx bidx' s' e'
            (p1 ++ (bidx, s, e) :: rest) ts hemp htr,
          runLoop_cons_success tr ab blocks progress callIdx bidx' s' e' p1 ts
            hemp htr]
        rw [ih bidx s e rest
          (applyTranslations blocks ((toTranslate blocks s' e').map Prod.fst) ts)
          (some ⟨bidx' + 1,
            applyTranslations blocks ((toTranslate blocks s' e').map Prod.fst) ts, ab⟩)
          (callIdx + 1) hok hne (by
            rw [Nat.add_assoc, Nat.add_comm 1 _]
            exact hfail)]
        simp

theorem runLoop_ok_checkpoint (tr : Nat → List (List Char) → Option (List (List Char)))
    (ab : List (Nat × Nat)) :
    ∀ (pending : List (Nat × Nat × Nat)) (blocks : List OBlock)
      (progress : Option Checkpoint) (callIdx : Nat),
      (runLoop tr ab blocks progress callIdx pending).ok = true →
      (runLoop tr ab blocks progress callIdx pending).checkpoint = progress ∨
      ∃ b bl, (runLoop tr ab blocks progress callIdx pending).checkpoint
        = some ⟨b + 1, bl, ab⟩ := by
  intro pending
  induction pending with
  | nil => intro blocks progress callIdx _; exact Or.inl rfl
  | cons hd rest ih =>
    intro blocks progress callIdx hok
    rcases hd with ⟨bidx, s, e⟩
    by_cases hemp : (toTranslate blocks s e).isEmpty
    · rw [runLoop_cons_skip tr ab blocks progress callIdx bidx s e _ hemp] at hok ⊢
      exact ih blocks progress callIdx hok
    · rw [Bool.not_eq_true] at hemp
      cases htr : tr callIdx ((toTranslate blocks s e).map Prod.snd) with
      | none =>
        rw [runLoop_cons_fail tr ab blocks progress callIdx bidx s e _ hemp htr] at hok
        simp at hok
      | some ts =>
        rw [runLoop_cons_success tr ab blocks progress callIdx bidx s e _ ts hemp htr]
          at hok ⊢
        simp only at hok ⊢
        rcases ih
          (applyTranslations blocks ((toTranslate blocks s e).map Prod.fst) ts)
          (some ⟨bidx + 1,
            applyTranslations blocks ((toTranslate blocks s e).map Prod.fst) ts, ab⟩)
          (callIdx + 1) hok with h | ⟨b, bl, h⟩
        · exact Or.inr ⟨bidx,
            applyTranslations blocks ((toTranslate blocks s e).map Prod.fst) ts, h⟩
        · exact Or.inr ⟨b, bl, h⟩

/-- C5: if, on a resumed run, every batch before some pending batch
resolves (or is skipped) and that batch's adapter call fails after
retries, the job reports failure without writing a final output, and the
progress file on disk is exactly the checkpoint from before the failing
batch — the loaded checkpoint itself if no batch was translated this run,
otherwise the one saved after the last successfully translated batch; the
failing batch touches neither the blocks nor the checkpoint. -/
theorem failed_batch_preserves_checkpoint
    (tr : Nat → List (List Char) → Option (List (List Char))) (cp : Checkpoint)
    (p1 : List (Nat × Nat × Nat)) (bidx s e : Nat) (rest : List (Nat × Nat × Nat))
    (r1 : LoopResult)
    (hpend : pendingFrom cp.batches cp.current_batch = p1 ++ (bidx, s, e) :: rest)
    (hr1 : runLoop tr cp.batches cp.blocks (some cp) 0 p1 = r1)
    (hok : r1.ok = true)
    (hne : (toTranslate r1.blocks s e).isEmpty = false)
    (hfail : tr r1.calls.length ((toTranslate r1.blocks s e).map Prod.snd) = none) :
    (translate_vtt_super_smart_resume tr cp).output = none ∧
    (translate_vtt_super_smart_resume tr cp).checkpoint = r1.checkpoint ∧
    (r1.checkpoint = some cp ∨
      ∃ b bl, r1.checkpoint = some ⟨b + 1, bl, cp.batches⟩) := by
  have hrun := runLoop_ok_then_fail tr cp.batches p1 bidx s e rest cp.blocks
    (some cp) 0 (by rw [hr1]; exact hok) (by rw [hr1]; exact hne)
    (by rw [hr1]; simpa using hfail)
  rw [hr1] at hrun
  have hcp := runLoop_ok_checkpoint tr cp.batches p1 cp.blocks (some cp) 0
    (by rw [hr1]; exact hok)
  rw [hr1] at hcp
  unfold translate_vtt_super_smart_resume
  rw [hpend, hrun]
  exact ⟨rfl, rfl, hcp⟩

def wCp5 : Checkpoint :=
  ⟨0, [⟨str "1", str "2", str "a", none⟩, ⟨str "3", str "4", str "b", none⟩],
   [(0, 1), (1, 2)]⟩

def wTr5 : Nat → List (List Char) → Option (List (List Char)) :=
  fun k _ => if k = 0 then some [str "好"] else none

def wR1 : LoopResult :=
  ⟨[⟨str "1", str "2", str "a", some (str "好")⟩, ⟨str "3", str "4", str "b", none⟩],
   some ⟨1, [⟨str "1", str "2", str "a", some (str "好")⟩,
             ⟨str "3", str "4", str "b", none⟩], [(0, 1), (1, 2)]⟩,
   [(0, [0], [str "a"])], true⟩

/-- Witness for C5: batch 0 succeeds, batch 1's adapter call fails; the
checkpoint on disk is the one saved after batch 0 and no output is
produced. -/
theorem failed_batch_preserves_checkpoint_witness :
    pendingFrom wCp5.batches wCp5.current_batch = [(0, 0, 1)] ++ (1, 1, 2) :: [] ∧
    runLoop wTr5 wCp5.batches wCp5.blocks (some wCp5) 0 [(0, 0, 1)] = wR1 ∧
    wR1.ok = true ∧
    (toTranslate wR1.blocks 1 2).isEmpty = false ∧
    wTr5 wR1.calls.length ((toTranslate wR1.blocks 1 2).map Prod.snd) = none ∧
    ((translate_vtt_super_smart_resume wTr5 wCp5).output = none ∧
     (translate_vtt_super_smart_resume wTr5 wCp5).checkpoint = wR1.checkpoint ∧
     (wR1.checkpoint = some wCp5 ∨
       ∃ b bl, wR1.checkpoint = some ⟨b + 1, bl, wCp5.batches⟩)) :=
  ⟨by decide, by decide, rfl, by decide, by decide,
    failed_batch_preserves_checkpoint wTr5 wCp5 [(0, 0, 1)] 1 1 2 [] wR1
      (by decide) (by decide) rfl (by decide) (by decide)⟩

/-- C9: a block whose `translated` field is set to the empty string is
treated as untranslated by every operation: the untranslated test holds,
the block does not add to the progress count, it is re-sent to the oracle
on resume (its index and source text appear in `toTranslate` of any batch
covering it, so the empty translation can be overwritten), and the final
output uses its source text rather than the empty translation. -/
theorem empty_translation_treated_as_untranslated (b : OBlock)
    (hb : b.translated = some []) (bs : List OBlock)
    (blocks : List OBlock) (s e m : Nat)
    (hm : blocks[m]? = some b) (hs : s ≤ m) (hme : m < e) :
    untranslatedB b = true ∧
    translatedCount (b :: bs) = translatedCount bs ∧
    outputText b = b.text ∧
    (m, b.text) ∈ toTranslate blocks s e := by
  have hu : untranslatedB b = true := by unfold untranslatedB; rw [hb]; rfl
  refine ⟨hu, ?_, ?_, toTranslate_mem_intro blocks s e m b hm hs hme hu⟩
  · unfold translatedCount
    rw [List.filter_cons]
    simp [hu]
  · unfold outputText; rw [hb]; rfl

/-- Witness for C9 at a concrete block with an empty-string translation. -/
theorem empty_translation_treated_as_untranslated_witness :
    (⟨str "1", str "2", str "a", some []⟩ : OBlock).translated = some [] ∧
    ([(⟨str "1", str "2", str "a", some []⟩ : OBlock)])[0]?
      = some ⟨str "1", str "2", str "a", some []⟩ ∧
    (untranslatedB ⟨str "1", str "2", str "a", some []⟩ = true ∧
     translatedCount [⟨str "1", str "2", str "a", some []⟩] = translatedCount [] ∧
     outputText ⟨str "1", str "2", str "a", some []⟩
       = (⟨str "1", str "2", str "a", some []⟩ : OBlock).text ∧
     (0, (⟨str "1", str "2", str "a", some []⟩ : OBlock).text)
       ∈ toTranslate [⟨str "1", str "2", str "a", some []⟩] 0 1) :=
  ⟨rfl, rfl,
    empty_translation_treated_as_untranslated ⟨str "1", str "2", str "a", some []⟩
      rfl [] [⟨str "1", str "2", str "a", some []⟩] 0 1 0 rfl (by omega) (by omega)⟩

/-! ### Plain resumable pipeline (`subtitle_translator_resume.py`) -/

/-- The JSON extraction of the plain pipeline's `translate_batch`: strip,
take the part after the first code fence when the content starts with one,
drop a leading `json` tag, strip again. -/
def resumeExtract (c : List Char) : List Char :=
  let content := pstrip c
  let content1 :=
    if startsWithList [tick, tick, tick] content then
      let c2 := (splitTicks content).getD 1 []
      if startsWithList (str "json") c2 then c2.drop 4 else c2
    else content
  pstrip content1

/-- `SmartVTTTranslator.translate_batch`: the whole body is wrapped in
`try/except Exception: return texts`, so an oracle exception or a JSON
parse failure returns the untranslated source texts instead of raising. -/
def translate_batch_resume (loads : List Char → Option JDict)
    (resp : OracleResp) (texts : List (List Char)) : List (List Char) :=
  match resp with
  | .raise _ => texts
  | .content c =>
    match loads (resumeExtract c) with
    | none => texts
    | some d =>
      (List.range texts.length).map fun idx =>
        (d (natToChars idx)).getD (texts.getD idx [])

/-- The progress file of the plain pipeline (`save_progress` without a
batch list). -/
structure CheckpointR where
  current_batch : Nat
  blocks : List OBlock
deriving Repr, DecidableEq

/-- The batch loop of `translate_vtt_smart`: its `translate_batch` is
total, so there is no failure branch and every processed batch is written
back and checkpointed. -/
def runLoopResume (tr : Nat → List (List Char) → List (List Char))
    (ab : List (Nat × Nat)) :
    List OBlock → Option CheckpointR → Nat → List (Nat × Nat × Nat) →
      List OBlock × Option CheckpointR
  | blocks, progress, _, [] => (blocks, progress)
  | blocks, progress, callIdx, (bidx, s, e) :: rest =>
    let todo := toTranslate blocks s e
    if todo.isEmpty then runLoopResume tr ab blocks progress callIdx rest
    else
      let ts := tr callIdx (todo.map Prod.snd)
      let blocks1 := applyTranslations blocks (todo.map Prod.fst) ts
      runLoopResume tr ab blocks1 (some ⟨bidx + 1, blocks1⟩) (callIdx + 1) rest

theorem enumFrom_pairwise_fst_lt {α : Type} : ∀ (n : Nat) (l : List α),
    (List.enumFrom n l).Pairwise fun a b => a.1 < b.1
  | _, [] => List.Pairwise.nil
  | n, x :: xs =>
    List.Pairwise.cons
      (fun _ hb => by have := List.le_fst_of_mem_enumFrom hb; omega)
      (enumFrom_pairwise_fst_lt (n + 1) xs)

theorem toTranslate_idx_pairwise (blocks : List OBlock) (s e : Nat) :
    ((toTranslate blocks s e).map Prod.fst).Pairwise (· < ·) := by
  unfold toTranslate
  refine List.Pairwise.map _ (fun a b h => h) ?_
  refine List.Pairwise.filterMap _ ?_ (enumFrom_pairwise_fst_lt 0 _)
  intro a a' hlt b hb b' hb'
  rw [Option.mem_def] at hb hb'
  split at hb
  · split at hb'
    · cases Option.some.inj hb
      cases Option.some.inj hb'
      simpa using hlt
    · simp at hb'
  · simp at hb

theorem toTranslate_idx_nodup (blocks : List OBlock) (s e : Nat) :
    ((toTranslate blocks s e).map Prod.fst).Nodup :=
  (toTranslate_idx_pairwise blocks s e).imp fun h => Nat.ne_of_lt h

theorem setTranslatedAt_getElem?_eq (blocks : List OBlock) (i : Nat) (t : List Char)
    (b : OBlock) (h : blocks[i]? = some b) :
    (setTranslatedAt blocks i t)[i]? = some { b with translated := some t } := by
  induction blocks generalizing i with
  | nil => simp at h
  | cons b0 bs ih =>
    cases i with
    | zero =>
      simp only [List.getElem?_cons_zero] at h
      cases Option.some.inj h
      simp [setTranslatedAt]
    | succ n => simpa [setTranslatedAt] using ih n (by simpa using h)

theorem applyTranslations_pairs :
    ∀ (ps : List (Nat × List Char)) (blocks : List OBlock), (ps.map Prod.fst).Nodup →
      ∀ p ∈ ps, ∀ b : OBlock, blocks[p.1]? = some b →
        (applyTranslations blocks (ps.map Prod.fst) (ps.map Prod.snd))[p.1]?
          = some { b with translated := some p.2 } := by
  intro ps
  induction ps with
  | nil => intro blocks _ p hp; simp at hp
  | cons q qs ih =>
    intro blocks hnd p hp b hb
    have hsplit := List.nodup_cons.mp hnd
    have hstep : applyTranslations blocks ((q :: qs).map Prod.fst)
        ((q :: qs).map Prod.snd)
        = applyTranslations (setTranslatedAt blocks q.1 q.2)
          (qs.map Prod.fst) (qs.map Prod.snd) := rfl
    rcases List.mem_cons.mp hp with rfl | hp'
    · rw [hstep, applyTranslations_getElem?_notMem _ _ _ _ hsplit.1,
        setTranslatedAt_getElem?_eq blocks p.1 p.2 b hb]
    · have hne : q.1 ≠ p.1 := by
        have h1 : p.1 ∈ qs.map Prod.fst := List.mem_map_of_mem Prod.fst hp'
        intro he
        exact hsplit.1 (he ▸ h1)
      have hb' : (setTranslatedAt blocks q.1 q.2)[p.1]? = some b := by
        rw [setTranslatedAt_getElem?_ne blocks q.1 p.1 q.2 hne]; exact hb
      rw [hstep]
      exact ih (setTranslatedAt blocks q.1 q.2) hsplit.2 p hp' b hb'

/-- C10: in the plain resumable pipeline, `translate_batch` catches every
oracle exception and JSON parse failure and returns the input source texts
instead of raising; the orchestrator loop records those texts as the
blocks' translations, persists the checkpoint `current_batch + 1`, and
moves on without any retry or failure branch — so an oracle failure yields
a completed run with untranslated text rather than a reported translation
failure. -/
theorem resume_pipeline_swallows_failures
    (loads : List Char → Option JDict) (msg c : List Char)
    (hc : loads (resumeExtract c) = none)
    (texts : List (List Char))
    (blocks : List OBlock) (ab : List (Nat × Nat)) (bidx s e : Nat)
    (rest : List (Nat × Nat × Nat)) (progress : Option CheckpointR) (callIdx : Nat)
    (hne : (toTranslate blocks s e).isEmpty = false) :
    translate_batch_resume loads (OracleResp.raise msg) texts = texts ∧
    translate_batch_resume loads (OracleResp.content c) texts = texts ∧
    runLoopResume (fun _ ts => ts) ab blocks progress callIdx
        ((bidx, s, e) :: rest)
      = runLoopResume (fun _ ts => ts) ab
          (applyTranslations blocks ((toTranslate blocks s e).map Prod.fst)
            ((toTranslate blocks s e).map Prod.snd))
          (some ⟨bidx + 1,
            applyTranslations blocks ((toTranslate blocks s e).map Prod.fst)
              ((toTranslate blocks s e).map Prod.snd)⟩)
          (callIdx + 1) rest ∧
    ∀ p ∈ toTranslate blocks s e,
      ∃ b : OBlock, blocks[p.1]? = some b ∧ p.2 = b.text ∧
        (applyTranslations blocks ((toTranslate blocks s e).map Prod.fst)
          ((toTranslate blocks s e).map Prod.snd))[p.1]?
          = some { b with translated := some b.text } := by
  refine ⟨rfl, ?_, ?_, ?_⟩
  · simp [translate_batch_resume, hc]
  · simp [runLoopResume, hne]
  · intro p hp
    obtain ⟨_, _, b, hb, _, htext⟩ := toTranslate_mem blocks s e p hp
    refine ⟨b, hb, htext, ?_⟩
    have := applyTranslations_pairs (toTranslate blocks s e) blocks
      (toTranslate_idx_nodup blocks s e) p hp b hb
    rw [this, htext]

def wBlocksR : List OBlock := [⟨str "1", str "2", str "hi", none⟩]

/-- Witness for C10: a single pending batch with an always-failing oracle
completes, recording the source text as the translation. -/
theorem resume_pipeline_swallows_failures_witness :
    loadsNone (resumeExtract (str "oops")) = none ∧
    (toTranslate wBlocksR 0 1).isEmpty = false ∧
    (translate_batch_resume loadsNone (OracleResp.raise (str "boom")) [str "hi"]
        = [str "hi"] ∧
     translate_batch_resume loadsNone (OracleResp.content (str "oops")) [str "hi"]
        = [str "hi"] ∧
     runLoopResume (fun _ ts => ts) [(0, 1)] wBlocksR none 0 ((0, 0, 1) :: [])
       = runLoopResume (fun _ ts => ts) [(0, 1)]
           (applyTranslations wBlocksR ((toTranslate wBlocksR 0 1).map Prod.fst)
             ((toTranslate wBlocksR 0 1).map Prod.snd))
           (some ⟨0 + 1,
             applyTranslations wBlocksR ((toTranslate wBlocksR 0 1).map Prod.fst)
               ((toTranslate wBlocksR 0 1).map Prod.snd)⟩)
           (0 + 1) [] ∧
     ∀ p ∈ toTranslate wBlocksR 0 1,
       ∃ b : OBlock, wBlocksR[p.1]? = some b ∧ p.2 = b.text ∧
         (applyTranslations wBlocksR ((toTranslate wBlocksR 0 1).map Prod.fst)
           ((toTranslate wBlocksR 0 1).map Prod.snd))[p.1]?
           = some { b with translated := some b.text }) :=
  ⟨rfl, by decide,
    resume_pipeline_swallows_failures loadsNone (str "boom") (str "oops") rfl
      [str "hi"] wBlocksR [(0, 1)] 0 0 1 [] none 0 (by decide)⟩

/-- `re.sub(r'&nbsp;', ' ', s)`: replace each (leftmost, non-overlapping)
occurrence of the entity by a space. -/
def replaceNbsp : List Char → List Char
  | '&' :: 'n' :: 'b' :: 's' :: 'p' :: ';' :: cs => ' ' :: replaceNbsp cs
  | c :: cs => c :: replaceNbsp cs
  | [] => []

/-- One-pass state machine for `re.sub(r'<[^>]+>', '', s)`: outside any
candidate tag (`none`) characters are copied; after an unmatched `<` the
characters are buffered (`some buf`, reversed) until a `>` arrives — a
non-empty buffer completes a tag match and is discarded, an empty buffer
(`<>`) matches nothing and is kept; at end of input an open buffer is kept
verbatim (no later match is possible without a `>`). -/
def stripTagsGo : Option (List Char) → List Char → List Char
  | none, [] => []
  | some buf, [] => '<' :: buf.reverse
  | none, c :: cs =>
    if c = '<' then stripTagsGo (some []) cs
    else c :: stripTagsGo none cs
  | some buf, c :: cs =>
    if c = '>' then
      if buf = [] then '<' :: '>' :: stripTagsGo none cs
      else stripTagsGo none cs
    else stripTagsGo (some (c :: buf)) cs

/-- `re.sub(r'<[^>]+>', '', s)`. -/
def stripTags (l : List Char) : List Char := stripTagsGo none l

/-! ### Caption codec (`subtitle_parser.py`)

A file's content is modelled as its list of lines (the result of
`content.split('\n')`); the writers produce the line list of the content
they emit.  `parse_vtt`/`parse_srt` produce `OutBlock`s (the
start/end/text dicts of the source). -/

/-- `' '.join(text_lines)`. -/
def joinSpace : List (List Char) → List Char
  | [] => []
  | [t] => t
  | t :: ts => t ++ ' ' :: joinSpace ts

/-- Greedy `\d+` at the front: the match and the remainder. -/
def takeDigits (l : List Char) : List Char × List Char :=
  (l.takeWhile Char.isDigit, l.dropWhile Char.isDigit)

/-- `re.match` of one timestamp group `\d+:\d+:\d+<sep>\d+` at the front of
`l`: the matched text and the remainder (deterministic maximal munch; the
characters after each `\d+` are non-digits, so regex backtracking never
changes the outcome). -/
def matchTimestampCore (sep : Char) (l : List Char) :
    Option (List Char × List Char) :=
  match takeDigits l with
  | (d1, r1) =>
    if d1 = [] then none else
    match r1 with
    | c1 :: r2 =>
      if c1 = ':' then
        match takeDigits r2 with
        | (d2, r3) =>
          if d2 = [] then none else
          match r3 with
          | c2 :: r4 =>
            if c2 = ':' then
              match takeDigits r4 with
              | (d3, r5) =>
                if d3 = [] then none else
                match r5 with
                | c3 :: r6 =>
                  if c3 = sep then
                    match takeDigits r6 with
                    | (d4, r7) =>
                      if d4 = [] then none
                      else some (d1 ++ ':' :: d2 ++ ':' :: d3 ++ sep :: d4, r7)
                  else none
                | [] => none
            else none
          | [] => none
      else none
    | [] => none

/-- The mandatory `-->` after the optional whitespace. -/
def matchArrow : List Char → Option (List Char)
  | c1 :: c2 :: c3 :: r =>
    if c1 = '-' ∧ c2 = '-' ∧ c3 = '>' then some r else none
  | _ => none

/-- `re.match(r'(\d+:\d+:\d+<sep>\d+)\s*-->\s*(\d+:\d+:\d+<sep>\d+)', l)`,
returning the two captured groups. -/
def matchTimestampLine (sep : Char) (l : List Char) :
    Option (List Char × List Char) :=
  match matchTimestampCore sep l with
  | none => none
  | some (t1, r) =>
    match matchArrow (r.dropWhile isSpaceChar) with
    | none => none
    | some r2 =>
      match matchTimestampCore sep (r2.dropWhile isSpaceChar) with
      | none => none
      | some (t2, _) => some (t1, t2)

/-- The inner text loop of `parse_vtt`: consume lines while non-blank and
arrow-free, stripping, normalizing `&nbsp;` and removing tags; return the
collected non-empty text lines and the unconsumed remainder. -/
def takeTextLines : List (List Char) → List (List Char) × List (List Char)
  | [] => ([], [])
  | l :: rest =>
    if pstrip l ≠ [] ∧ containsArrow l = false then
      let t := stripTags (replaceNbsp (pstrip l))
      let (ts, r) := takeTextLines rest
      (if t ≠ [] then t :: ts else ts, r)
    else ([], l :: rest)

/-- The `while i < len(lines)` loop of `parse_vtt`, fuel-indexed (each
iteration consumes at least one line, so `fuel = lines.length` always
suffices). -/
def parseVTTGo : Nat → List (List Char) → List OutBlock
  | 0, _ => []
  | _ + 1, [] => []
  | fuel + 1, l :: rest =>
    let line := pstrip l
    if line = [] || startsWithList (str "WEBVTT") line
        || startsWithList (str "Kind:") line
        || startsWithList (str "Language:") line then
      parseVTTGo fuel rest
    else if containsArrow line then
      match matchTimestampLine '.' line with
      | none => parseVTTGo fuel rest
      | some (st, en) =>
        match takeTextLines rest with
        | (tls, rest1) =>
          let bs := parseVTTGo fuel rest1
          if tls ≠ [] then ⟨st, en, joinSpace tls⟩ :: bs else bs
    else parseVTTGo fuel rest

/-- `parse_vtt` on a content's line list. -/
def parse_vtt (lines : List (List Char)) : List OutBlock :=
  parseVTTGo lines.length lines

/-- Python `line.isdigit()`: non-empty, all digits. -/
def isDigitLine (l : List Char) : Bool :=
  !l.isEmpty && l.all Char.isDigit

/-- The inner text loop of `parse_srt`: consume lines while non-blank
(no arrow check, no tag handling), stripping each. -/
def takeSRTTextLines : List (List Char) → List (List Char) × List (List Char)
  | [] => ([], [])
  | l :: rest =>
    if pstrip l ≠ [] then
      let (ts, r) := takeSRTTextLines rest
      (pstrip l :: ts, r)
    else ([], l :: rest)

/-- `start_time.replace(',', '.')` (normalization in `parse_srt`). -/
def commaToDot (t : List Char) : List Char :=
  t.map fun c => if c = ',' then '.' else c

/-- `start_time.replace('.', ',')` (in `write_srt`). -/
def dotToComma (t : List Char) : List Char :=
  t.map fun c => if c = '.' then ',' else c

/-- The `while i < len(lines)` loop of `parse_srt`, fuel-indexed. -/
def parseSRTGo : Nat → List (List Char) → List OutBlock
  | 0, _ => []
  | _ + 1, [] => []
  | fuel + 1, l :: rest =>
    let line := pstrip l
    if line = [] then parseSRTGo fuel rest
    else if isDigitLine line then
      match rest with
      | [] => []
      | tl :: rest2 =>
        if containsArrow tl then
          match matchTimestampLine ',' (pstrip tl) with
          | none => parseSRTGo fuel rest2
          | some (st, en) =>
            match takeSRTTextLines rest2 with
            | (tls, rest3) =>
              let bs := parseSRTGo fuel rest3
              if tls ≠ [] then
                ⟨commaToDot st, commaToDot en, joinSpace tls⟩ :: bs
              else bs
        else parseSRTGo fuel rest
    else parseSRTGo fuel rest

/-- `parse_srt` on a content's line list. -/
def parse_srt (lines : List (List Char)) : List OutBlock :=
  parseSRTGo lines.length lines

/-- The lines `write_vtt` emits for one block. -/
def vttBlockLines (b : OutBlock) : List (List Char) :=
  [b.start_time ++ str " --> " ++ b.end_time, b.text, []]

/-- `write_vtt`: fixed three-line header, then per block the timestamp
line, the text line and a blank line; the final newline yields one
trailing empty line under `split('\n')`. -/
def write_vtt (blocks : List OutBlock) : List (List Char) :=
  [str "WEBVTT", str "Kind: captions", str "Language: zh", []] ++
    (blocks.map vttBlockLines).flatten ++ [[]]

/-- The lines `write_srt` emits for the block numbered `num` (1-based). -/
def srtBlockLines (num : Nat) (b : OutBlock) : List (List Char) :=
  [natToChars num,
   dotToComma b.start_time ++ str " --> " ++ dotToComma b.end_time,
   b.text, []]

/-- `write_srt`: per block the 1-based number, the comma-separated
timestamp line, the text line and a blank line. -/
def write_srt (blocks : List OutBlock) : List (List Char) :=
  (blocks.enum.map fun p => srtBlockLines (p.1 + 1) p.2).flatten ++ [[]]

/-! Helper lemmas for the round-trip proofs. -/

theorem startsWithList_self_append (p r : List Char) :
    startsWithList p (p ++ r) = true := by
  induction p with
  | nil => rfl
  | cons a p ih => simp [startsWithList, ih]

theorem containsSub_append_left (p xs ys : List Char)
    (h : containsSub p ys = true) : containsSub p (xs ++ ys) = true := by
  induction xs with
  | nil => simpa using h
  | cons x xs ih =>
    rw [List.cons_append,
      show containsSub p (x :: (xs ++ ys))
        = (startsWithList p (x :: (xs ++ ys)) || containsSub p (xs ++ ys)) from rfl,
      Bool.or_eq_true]
    exact Or.inr ih

theorem containsSub_of_startsWith (p l : List Char)
    (h : startsWithList p l = true) : containsSub p l = true := by
  cases l with
  | nil => simpa [containsSub] using h
  | cons c cs =>
    rw [show containsSub p (c :: cs)
        = (startsWithList p (c :: cs) || containsSub p cs) from rfl,
      Bool.or_eq_true]
    exact Or.inl h

theorem startsWithList_cons_ne (a c : Char) (p l : List Char) (h : a ≠ c) :
    startsWithList (a :: p) (c :: l) = false := by
  simp [startsWithList, h]

theorem isDigit_ne_of (c x : Char) (h : c.isDigit = true)
    (hx : x.isDigit = false) : c ≠ x := by
  intro he
  rw [he, hx] at h
  exact absurd h (by simp)

theorem isDigit_not_space (c : Char) (h : c.isDigit = true) :
    isSpaceChar c = false := by
  by_contra hs
  rw [Bool.not_eq_false] at hs
  unfold isSpaceChar at hs
  simp only [Bool.or_eq_true, decide_eq_true_eq] at hs
  rcases hs with ((((rfl | rfl) | rfl) | rfl) | rfl) | rfl <;>
    exact absurd h (by decide)

theorem dropWhile_eq_self_of_head {p : Char → Bool} (l : List Char)
    (h : ∀ c, l.head? = some c → p c = false) : l.dropWhile p = l := by
  cases l with
  | nil => rfl
  | cons c cs =>
    rw [List.dropWhile_cons, h c rfl]
    simp

theorem pstrip_eq_self (l : List Char)
    (h1 : ∀ c, l.head? = some c → isSpaceChar c = false)
    (h2 : ∀ c, l.getLast? = some c → isSpaceChar c = false) :
    pstrip l = l := by
  unfold pstrip
  rw [dropWhile_eq_self_of_head l h1]
  rw [dropWhile_eq_self_of_head l.reverse (by
    intro c hc
    rw [List.head?_reverse] at hc
    exact h2 c hc)]
  exact List.reverse_reverse l

theorem takeDigits_append (d r : List Char) (hd : ∀ c ∈ d, c.isDigit = true)
    (hr : ∀ c, r.head? = some c → c.isDigit = false) :
    takeDigits (d ++ r) = (d, r) := by
  induction d with
  | nil =>
    unfold takeDigits
    rw [List.nil_append]
    cases r with
    | nil => rfl
    | cons c cs =>
      rw [List.takeWhile_cons, List.dropWhile_cons, hr c rfl]
      simp
  | cons a d ih =>
    have ha : a.isDigit = true := hd a (List.mem_cons_self a d)
    have ih' := ih (fun c hc => hd c (List.mem_cons_of_mem a hc))
    unfold takeDigits at ih' ⊢
    rw [List.cons_append, List.takeWhile_cons, List.dropWhile_cons, ha]
    simp only [if_true]
    rw [Prod.mk.injEq] at ih'
    rw [ih'.1, ih'.2]

/-- Decomposition of a well-formed timestamp string into its four digit
groups. -/
structure TimeParts where
  hh : List Char
  mm : List Char
  ss : List Char
  ms : List Char

/-- The wire form `hh:mm:ss<sep>ms`. -/
def TimeParts.render (p : TimeParts) (sep : Char) : List Char :=
  p.hh ++ ':' :: p.mm ++ ':' :: p.ss ++ sep :: p.ms

def ValidParts (p : TimeParts) : Prop :=
  p.hh ≠ [] ∧ p.mm ≠ [] ∧ p.ss ≠ [] ∧ p.ms ≠ [] ∧
  (∀ c ∈ p.hh, c.isDigit = true) ∧ (∀ c ∈ p.mm, c.isDigit = true) ∧
  (∀ c ∈ p.ss, c.isDigit = true) ∧ (∀ c ∈ p.ms, c.isDigit = true)

/-- A well-formed timestamp as the dialect-specific pattern accepts it. -/
def ValidTime (sep : Char) (t : List Char) : Prop :=
  ∃ p : TimeParts, ValidParts p ∧ t = p.render sep

theorem render_head_digit (sep : Char) (p : TimeParts) (hp : ValidParts p) :
    ∃ c rest, p.render sep = c :: rest ∧ c.isDigit = true := by
  obtain ⟨h1, _, _, _, hd1, _, _, _⟩ := hp
  cases hhh : p.hh with
  | nil => exact absurd hhh h1
  | cons c tl =>
    refine ⟨c, tl ++ ':' :: p.mm ++ ':' :: p.ss ++ sep :: p.ms, ?_, ?_⟩
    · unfold TimeParts.render
      rw [hhh]
      simp [List.append_assoc]
    · exact hd1 c (hhh ▸ List.mem_cons_self c tl)

theorem render_getLast_digit (sep : Char) (p : TimeParts) (hp : ValidParts p) :
    ∃ c, (p.render sep).getLast? = some c ∧ c.isDigit = true := by
  obtain ⟨_, _, _, h4, _, _, _, hd4⟩ := hp
  cases hms : p.ms.getLast? with
  | none => exact absurd (List.getLast?_eq_none_iff.mp hms) h4
  | some c =>
    obtain ⟨ms', hms'⟩ := List.getLast?_eq_some_iff.mp hms
    refine ⟨c, ?_, hd4 c (List.mem_of_getLast?_eq_some hms)⟩
    unfold TimeParts.render
    rw [hms']
    rw [show p.hh ++ ':' :: p.mm ++ ':' :: p.ss ++ sep :: (ms' ++ [c])
        = (p.hh ++ ':' :: p.mm ++ ':' :: p.ss ++ sep :: ms') ++ [c] by
      simp [List.append_assoc]]
    exact List.getLast?_concat _

theorem matchTimestampCore_render (sep : Char) (hsep : sep.isDigit = false)
    (p : TimeParts) (hp : ValidParts p) (r : List Char)
    (hr : ∀ c, r.head? = some c → c.isDigit = false) :
    matchTimestampCore sep (p.render sep ++ r) = some (p.render sep, r) := by
  obtain ⟨h1, h2, h3, h4, hd1, hd2, hd3, hd4⟩ := hp
  have hshape : p.render sep ++ r
      = p.hh ++ (':' :: (p.mm ++ (':' :: (p.ss ++ (sep :: (p.ms ++ r)))))) := by
    unfold TimeParts.render
    simp [List.append_assoc]
  have e1 : takeDigits
      (p.hh ++ (':' :: (p.mm ++ (':' :: (p.ss ++ (sep :: (p.ms ++ r)))))))
      = (p.hh, ':' :: (p.mm ++ (':' :: (p.ss ++ (sep :: (p.ms ++ r)))))) :=
    takeDigits_append _ _ hd1 (fun c hc => by
      rw [List.head?_cons] at hc; cases Option.some.inj hc; decide)
  have e2 : takeDigits (p.mm ++ (':' :: (p.ss ++ (sep :: (p.ms ++ r)))))
      = (p.mm, ':' :: (p.ss ++ (sep :: (p.ms ++ r)))) :=
    takeDigits_append _ _ hd2 (fun c hc => by
      rw [List.head?_cons] at hc; cases Option.some.inj hc; decide)
  have e3 : takeDigits (p.ss ++ (sep :: (p.ms ++ r)))
      = (p.ss, sep :: (p.ms ++ r)) :=
    takeDigits_append _ _ hd3 (fun c hc => by
      rw [List.head?_cons] at hc; cases Option.some.inj hc; exact hsep)
  have e4 : takeDigits (p.ms ++ r) = (p.ms, r) :=
    takeDigits_append _ _ hd4 hr
  rw [hshape]
  simp only [matchTimestampCore, e1, e2, e3, e4]
  simp [h1, h2, h3, h4, TimeParts.render, List.append_assoc]

theorem matchTimestampLine_render (sep : Char) (hsep : sep.isDigit = false)
    (p q : TimeParts) (hp : ValidParts p) (hq : ValidParts q) :
    matchTimestampLine sep
      (p.render sep ++ ' ' :: '-' :: '-' :: '>' :: ' ' :: q.render sep)
      = some (p.render sep, q.render sep) := by
  have e1 := matchTimestampCore_render sep hsep p hp
    (' ' :: '-' :: '-' :: '>' :: ' ' :: q.render sep)
    (fun c hc => by rw [List.head?_cons] at hc; cases Option.some.inj hc; decide)
  have e2 := matchTimestampCore_render sep hsep q hq []
    (fun c hc => by simp at hc)
  rw [List.append_nil] at e2
  obtain ⟨c0, rest0, hq0, hq0d⟩ := render_head_digit sep q hq
  have hdw1 : (' ' :: '-' :: '-' :: '>' :: ' ' :: q.render sep).dropWhile isSpaceChar
      = '-' :: '-' :: '>' :: ' ' :: q.render sep := by
    rw [List.dropWhile_cons, if_pos (by decide), List.dropWhile_cons,
      if_neg (by decide)]
  have hdw2 : (' ' :: q.render sep).dropWhile isSpaceChar = q.render sep := by
    rw [List.dropWhile_cons, if_pos (by decide)]
    apply dropWhile_eq_self_of_head
    intro c hc
    rw [hq0, List.head?_cons] at hc
    cases Option.some.inj hc
    exact isDigit_not_space _ hq0d
  simp only [matchTimestampLine, e1, hdw1, matchArrow]
  simp [hdw2, e2]

/-- Well-formedness of a block's text, as `parse_vtt` produces it for
ASCII-clean fixtures: non-blank, strip-stable, free of cue separators,
entity/tag-free, single-line. -/
def GoodText (t : List Char) : Prop :=
  t ≠ [] ∧ pstrip t = t ∧ containsArrow t = false ∧
  replaceNbsp t = t ∧ stripTags t = t ∧ '\n' ∉ t

/-- A well-formed caption block (internal representation: `.`-separated
millisecond timestamps). -/
def GoodBlock (b : OutBlock) : Prop :=
  ValidTime '.' b.start_time ∧ ValidTime '.' b.end_time ∧ GoodText b.text

theorem skip_cond_false_of_digit_head (c0 : Char) (X : List Char)
    (hd : c0.isDigit = true) :
    (decide (c0 :: X = []) || startsWithList (str "WEBVTT") (c0 :: X)
      || startsWithList (str "Kind:") (c0 :: X)
      || startsWithList (str "Language:") (c0 :: X)) = false := by
  have h1 : startsWithList (str "WEBVTT") (c0 :: X) = false := by
    rw [show str "WEBVTT" = 'W' :: str "EBVTT" from rfl]
    exact startsWithList_cons_ne 'W' c0 _ _
      (Ne.symm (isDigit_ne_of c0 'W' hd (by decide)))
  have h2 : startsWithList (str "Kind:") (c0 :: X) = false := by
    rw [show str "Kind:" = 'K' :: str "ind:" from rfl]
    exact startsWithList_cons_ne 'K' c0 _ _
      (Ne.symm (isDigit_ne_of c0 'K' hd (by decide)))
  have h3 : startsWithList (str "Language:") (c0 :: X) = false := by
    rw [show str "Language:" = 'L' :: str "anguage:" from rfl]
    exact startsWithList_cons_ne 'L' c0 _ _
      (Ne.symm (isDigit_ne_of c0 'L' hd (by decide)))
  simp [h1, h2, h3]

theorem containsArrow_tsline (A B : List Char) :
    containsArrow (A ++ ' ' :: '-' :: '-' :: '>' :: ' ' :: B) = true := by
  unfold containsArrow
  apply containsSub_append_left
  rw [show (' ' :: '-' :: '-' :: '>' :: ' ' :: B)
      = [' '] ++ (str "-->" ++ (' ' :: B)) from rfl]
  apply containsSub_append_left
  exact containsSub_of_startsWith _ _ (startsWithList_self_append _ _)

/-- Facts about the written timestamp line. -/
theorem tsline_facts (sep : Char)
    (p q : TimeParts) (hp : ValidParts p) (hq : ValidParts q) :
    pstrip (p.render sep ++ ' ' :: '-' :: '-' :: '>' :: ' ' :: q.render sep)
      = p.render sep ++ ' ' :: '-' :: '-' :: '>' :: ' ' :: q.render sep ∧
    ∃ c0 X, p.render sep ++ ' ' :: '-' :: '-' :: '>' :: ' ' :: q.render sep
      = c0 :: X ∧ c0.isDigit = true := by
  obtain ⟨c0, rest0, hc0, hc0d⟩ := render_head_digit sep p hp
  obtain ⟨cl, hcl, hcld⟩ := render_getLast_digit sep q hq
  have hcons : p.render sep ++ ' ' :: '-' :: '-' :: '>' :: ' ' :: q.render sep
      = c0 :: (rest0 ++ ' ' :: '-' :: '-' :: '>' :: ' ' :: q.render sep) := by
    rw [hc0, List.cons_append]
  have hlast : (p.render sep ++ ' ' :: '-' :: '-' :: '>' :: ' ' :: q.render sep).getLast?
      = some cl := by
    rw [show p.render sep ++ ' ' :: '-' :: '-' :: '>' :: ' ' :: q.render sep
        = (p.render sep ++ [' ', '-', '-', '>', ' ']) ++ q.render sep from by
      simp [List.append_assoc]]
    rw [List.getLast?_append, hcl]
    rfl
  refine ⟨?_, c0, _, hcons, hc0d⟩
  exact pstrip_eq_self _
    (fun c hc => by
      rw [hcons, List.head?_cons] at hc
      cases Option.some.inj hc
      exact isDigit_not_space _ hc0d)
    (fun c hc => by
      rw [hlast] at hc
      cases Option.some.inj hc
      exact isDigit_not_space _ hcld)

theorem parseVTTGo_nil (fuel : Nat) : parseVTTGo fuel [] = [] := by
  cases fuel <;> rfl

theorem parseVTTGo_skip (fuel : Nat) (l : List Char) (rest : List (List Char))
    (h : (decide (pstrip l = []) || startsWithList (str "WEBVTT") (pstrip l)
      || startsWithList (str "Kind:") (pstrip l)
      || startsWithList (str "Language:") (pstrip l)) = true) :
    parseVTTGo (fuel + 1) (l :: rest) = parseVTTGo fuel rest := by
  simp only [parseVTTGo]
  rw [if_pos h]

theorem parseVTTGo_blank (fuel : Nat) (rest : List (List Char)) :
    parseVTTGo (fuel + 1) ([] :: rest) = parseVTTGo fuel rest :=
  parseVTTGo_skip fuel [] rest (by decide)

theorem takeTextLines_good (t : List Char) (ht : GoodText t)
    (rest : List (List Char)) :
    takeTextLines (t :: [] :: rest) = ([t], [] :: rest) := by
  obtain ⟨h1, h2, h3, h4, h5, _⟩ := ht
  unfold takeTextLines
  rw [if_pos ⟨by rw [h2]; exact h1, h3⟩]
  rw [show takeTextLines ([] :: rest) = ([], [] :: rest) from by
    unfold takeTextLines
    exact if_neg (fun hcon => hcon.1 rfl)]
  rw [h2, h4, h5]
  simp [h1]

theorem parseVTTGo_blockLines :
    ∀ (blocks : List OutBlock) (fuel : Nat),
      (∀ b ∈ blocks, GoodBlock b) →
      (blocks.map vttBlockLines).flatten.length + 1 ≤ fuel →
      parseVTTGo fuel ((blocks.map vttBlockLines).flatten ++ [[]]) = blocks := by
  intro blocks
  induction blocks with
  | nil =>
    intro fuel _ hfuel
    rcases fuel with _ | f
    · omega
    · show parseVTTGo (f + 1) ([] :: []) = []
      rw [parseVTTGo_blank, parseVTTGo_nil]
  | cons b bs ih =>
    intro fuel hwf hfuel
    obtain ⟨hst, hen, htext⟩ := hwf b (List.mem_cons_self b bs)
    obtain ⟨p, hp, hpe⟩ := hst
    obtain ⟨q, hq, hqe⟩ := hen
    have hlines : ((b :: bs).map vttBlockLines).flatten ++ [[]]
        = (p.render '.' ++ ' ' :: '-' :: '-' :: '>' :: ' ' :: q.render '.')
          :: b.text :: [] :: ((bs.map vttBlockLines).flatten ++ [[]]) := by
      simp only [List.map_cons, List.flatten_cons, vttBlockLines, hpe, hqe,
        show str " --> " = [' ', '-', '-', '>', ' '] from rfl]
      simp [List.append_assoc]
    have hlen : ((b :: bs).map vttBlockLines).flatten.length
        = (bs.map vttBlockLines).flatten.length + 3 := by
      simp [vttBlockLines]
    obtain ⟨hps, c0, X, hcons, hc0d⟩ := tsline_facts '.' p q hp hq
    obtain ⟨f, rfl⟩ : ∃ f, fuel = f + 1 := ⟨fuel - 1, by omega⟩
    obtain ⟨g, rfl⟩ : ∃ g, f = g + 1 := ⟨f - 1, by omega⟩
    rw [hlines]
    simp only [parseVTTGo]
    rw [hps]
    rw [show (decide
        ((p.render '.' ++ ' ' :: '-' :: '-' :: '>' :: ' ' :: q.render '.') = [])
      || startsWithList (str "WEBVTT")
        (p.render '.' ++ ' ' :: '-' :: '-' :: '>' :: ' ' :: q.render '.')
      || startsWithList (str "Kind:")
        (p.render '.' ++ ' ' :: '-' :: '-' :: '>' :: ' ' :: q.render '.')
      || startsWithList (str "Language:")
        (p.render '.' ++ ' ' :: '-' :: '-' :: '>' :: ' ' :: q.render '.')) = false
      from by rw [hcons]; exact skip_cond_false_of_digit_head c0 X hc0d]
    rw [containsArrow_tsline (p.render '.') (q.render '.')]
    simp only [Bool.false_eq_true, if_false, if_true]
    rw [matchTimestampLine_render '.' (by decide) p q hp hq]
    rw [takeTextLines_good b.text htext _]
    simp only []
    rw [parseVTTGo_blank g _]
    rw [ih g (fun x hx => hwf x (List.mem_cons_of_mem b hx)) (by omega)]
    rw [← hpe, ← hqe]
    simp [joinSpace]

theorem parseVTTGo_header (fuel : Nat) (rest : List (List Char)) :
    parseVTTGo (fuel + 4)
      (str "WEBVTT" :: str "Kind: captions" :: str "Language: zh" :: [] :: rest)
      = parseVTTGo fuel rest := by
  rw [show fuel + 4 = (((fuel + 1) + 1) + 1) + 1 from rfl]
  rw [parseVTTGo_skip _ _ _ (by decide)]
  rw [parseVTTGo_skip _ _ _ (by decide)]
  rw [parseVTTGo_skip _ _ _ (by decide)]
  rw [parseVTTGo_blank]

theorem parse_write_vtt (blocks : List OutBlock)
    (hwf : ∀ b ∈ blocks, GoodBlock b) :
    parse_vtt (write_vtt blocks) = blocks := by
  unfold parse_vtt write_vtt
  rw [show ([str "WEBVTT", str "Kind: captions", str "Language: zh", []] ++
      (blocks.map vttBlockLines).flatten ++ [[]])
      = str "WEBVTT" :: str "Kind: captions" :: str "Language: zh" :: [] ::
        ((blocks.map vttBlockLines).flatten ++ [[]]) from rfl]
  rw [show (str "WEBVTT" :: str "Kind: captions" :: str "Language: zh" :: [] ::
        ((blocks.map vttBlockLines).flatten ++ [[]])).length
      = ((blocks.map vttBlockLines).flatten.length + 1) + 4 from by simp]
  rw [parseVTTGo_header]
  exact parseVTTGo_blockLines blocks _ hwf (by omega)

theorem digitChar_isDigit (m : Nat) (h : m < 10) :
    (Nat.digitChar m).isDigit = true := by
  interval_cases m <;> decide

theorem natToCharsAux_spec : ∀ fuel n, n < fuel →
    natToCharsAux fuel n ≠ [] ∧ ∀ c ∈ natToCharsAux fuel n, c.isDigit = true := by
  intro fuel
  induction fuel with
  | zero => intro n h; omega
  | succ f ih =>
    intro n h
    unfold natToCharsAux
    by_cases h10 : n < 10
    · rw [if_pos h10]
      refine ⟨by simp, ?_⟩
      intro c hc
      rcases List.mem_singleton.mp hc with rfl
      exact digitChar_isDigit n h10
    · rw [if_neg h10]
      have hdiv : n / 10 < n := Nat.div_lt_self (by omega) (by omega)
      obtain ⟨ih1, ih2⟩ := ih (n / 10) (by omega)
      refine ⟨by simp, ?_⟩
      intro c hc
      rcases List.mem_append.mp hc with hc | hc
      · exact ih2 c hc
      · rcases List.mem_singleton.mp hc with rfl
        exact digitChar_isDigit (n % 10) (Nat.mod_lt _ (by omega))

theorem natToChars_ne_nil (n : Nat) : natToChars n ≠ [] :=
  (natToCharsAux_spec (n + 1) n (by omega)).1

theorem natToChars_digits (n : Nat) : ∀ c ∈ natToChars n, c.isDigit = true :=
  (natToCharsAux_spec (n + 1) n (by omega)).2

theorem pstrip_eq_self_of_all_digits (l : List Char) (hne : l ≠ [])
    (hd : ∀ c ∈ l, c.isDigit = true) : pstrip l = l := by
  apply pstrip_eq_self
  · intro c hc
    cases l with
    | nil => simp at hc
    | cons a tl =>
      rw [List.head?_cons] at hc
      cases Option.some.inj hc
      exact isDigit_not_space _ (hd _ (List.mem_cons_self _ _))
  · intro c hc
    exact isDigit_not_space _ (hd _ (List.mem_of_getLast?_eq_some hc))

theorem isDigitLine_natToChars (n : Nat) : isDigitLine (natToChars n) = true := by
  unfold isDigitLine
  rw [Bool.and_eq_true]
  constructor
  · cases hl : natToChars n with
    | nil => exact absurd hl (natToChars_ne_nil n)
    | cons a tl => rfl
  · rw [List.all_eq_true]
    exact natToChars_digits n

theorem map_eq_self_of_digit (f : Char → Char)
    (hf : ∀ c, c.isDigit = true → f c = c)
    (l : List Char) (hl : ∀ c ∈ l, c.isDigit = true) : l.map f = l := by
  induction l with
  | nil => rfl
  | cons c cs ih =>
    rw [List.map_cons, hf c (hl c (List.mem_cons_self c cs)),
      ih fun x hx => hl x (List.mem_cons_of_mem _ hx)]

theorem dotToComma_render (p : TimeParts) (hp : ValidParts p) :
    dotToComma (p.render '.') = p.render ',' := by
  obtain ⟨_, _, _, _, hd1, hd2, hd3, hd4⟩ := hp
  have hf : ∀ c : Char, c.isDigit = true → (if c = '.' then ',' else c) = c :=
    fun c hc => if_neg (isDigit_ne_of c '.' hc (by decide))
  unfold dotToComma TimeParts.render
  simp only [List.map_append, List.map_cons]
  rw [map_eq_self_of_digit _ hf p.hh hd1, map_eq_self_of_digit _ hf p.mm hd2,
    map_eq_self_of_digit _ hf p.ss hd3, map_eq_self_of_digit _ hf p.ms hd4]
  simp [show (if (':' : Char) = '.' then ',' else ':') = ':' from by decide,
    show (if ('.' : Char) = '.' then ',' else '.') = ',' from by decide]

theorem commaToDot_render (p : TimeParts) (hp : ValidParts p) :
    commaToDot (p.render ',') = p.render '.' := by
  obtain ⟨_, _, _, _, hd1, hd2, hd3, hd4⟩ := hp
  have hf : ∀ c : Char, c.isDigit = true → (if c = ',' then '.' else c) = c :=
    fun c hc => if_neg (isDigit_ne_of c ',' hc (by decide))
  unfold commaToDot TimeParts.render
  simp only [List.map_append, List.map_cons]
  rw [map_eq_self_of_digit _ hf p.hh hd1, map_eq_self_of_digit _ hf p.mm hd2,
    map_eq_self_of_digit _ hf p.ss hd3, map_eq_self_of_digit _ hf p.ms hd4]
  simp [show (if (':' : Char) = ',' then '.' else ':') = ':' from by decide,
    show (if (',' : Char) = ',' then '.' else ',') = '.' from by decide]

theorem takeSRTTextLines_good (t : List Char) (h1 : t ≠ []) (h2 : pstrip t = t)
    (rest : List (List Char)) :
    takeSRTTextLines (t :: [] :: rest) = ([t], [] :: rest) := by
  unfold takeSRTTextLines
  rw [if_pos (by rw [h2]; exact h1)]
  rw [show takeSRTTextLines ([] :: rest) = ([], [] :: rest) from by
    unfold takeSRTTextLines
    exact if_neg (fun hcon => hcon rfl)]
  rw [h2]

theorem parseSRTGo_nil (fuel : Nat) : parseSRTGo fuel [] = [] := by
  cases fuel <;> rfl

theorem parseSRTGo_blank (fuel : Nat) (rest : List (List Char)) :
    parseSRTGo (fuel + 1) ([] :: rest) = parseSRTGo fuel rest := by
  simp only [parseSRTGo]
  exact if_pos rfl

theorem parseSRTGo_blockLines :
    ∀ (bns : List (Nat × OutBlock)) (fuel : Nat),
      (∀ x ∈ bns, GoodBlock x.2) →
      ((bns.map fun x => srtBlockLines (x.1 + 1) x.2).flatten.length + 1 ≤ fuel) →
      parseSRTGo fuel
        ((bns.map fun x => srtBlockLines (x.1 + 1) x.2).flatten ++ [[]])
        = bns.map Prod.snd := by
  intro bns
  induction bns with
  | nil =>
    intro fuel _ hf
    rcases fuel with _ | f
    · omega
    · show parseSRTGo (f + 1) ([] :: []) = []
      rw [parseSRTGo_blank, parseSRTGo_nil]
  | cons nb rest ih =>
    intro fuel hwf hf
    obtain ⟨n, b⟩ := nb
    obtain ⟨hst, hen, htext⟩ := hwf (n, b) (List.mem_cons_self _ _)
    rw [show ((n, b) : Nat × OutBlock).2 = b from rfl] at hst hen htext
    obtain ⟨p, hp, hpe⟩ := hst
    obtain ⟨q, hq, hqe⟩ := hen
    have hlines :
        ((((n, b) :: rest).map fun x => srtBlockLines (x.1 + 1) x.2).flatten ++ [[]])
        = natToChars (n + 1)
          :: (p.render ',' ++ ' ' :: '-' :: '-' :: '>' :: ' ' :: q.render ',')
          :: b.text :: []
          :: ((rest.map fun x => srtBlockLines (x.1 + 1) x.2).flatten ++ [[]]) := by
      simp only [List.map_cons, List.flatten_cons, srtBlockLines, hpe, hqe,
        dotToComma_render p hp, dotToComma_render q hq,
        show str " --> " = [' ', '-', '-', '>', ' '] from rfl]
      simp [List.append_assoc]
    have hlen :
        (((n, b) :: rest).map fun x => srtBlockLines (x.1 + 1) x.2).flatten.length
        = (rest.map fun x => srtBlockLines (x.1 + 1) x.2).flatten.length + 4 := by
      simp [srtBlockLines]
    obtain ⟨hps, c0, X, hcons, hc0d⟩ := tsline_facts ',' p q hp hq
    obtain ⟨f, rfl⟩ : ∃ f, fuel = f + 1 := ⟨fuel - 1, by omega⟩
    obtain ⟨g, rfl⟩ : ∃ g, f = g + 1 := ⟨f - 1, by omega⟩
    rw [hlines]
    simp only [parseSRTGo]
    rw [pstrip_eq_self_of_all_digits _ (natToChars_ne_nil _) (natToChars_digits _)]
    rw [if_neg (natToChars_ne_nil (n + 1)), isDigitLine_natToChars (n + 1)]
    simp only [if_true]
    rw [containsArrow_tsline (p.render ',') (q.render ',')]
    simp only [if_true]
    rw [hps, matchTimestampLine_render ',' (by decide) p q hp hq]
    rw [takeSRTTextLines_good b.text htext.1 htext.2.1 _]
    simp only []
    rw [parseSRTGo_blank g _]
    rw [ih g (fun x hx => hwf x (List.mem_cons_of_mem _ hx)) (by omega)]
    rw [commaToDot_render p hp, commaToDot_render q hq, ← hpe, ← hqe]
    simp [joinSpace]

theorem parse_write_srt (blocks : List OutBlock)
    (hwf : ∀ b ∈ blocks, GoodBlock b) :
    parse_srt (write_srt blocks) = blocks := by
  unfold parse_srt write_srt
  have hgb : ∀ x ∈ blocks.enum, GoodBlock x.2 := fun x hx =>
    hwf x.2 (List.snd_mem_of_mem_enumFrom hx)
  have hL : ((blocks.enum.map fun (p : Nat × OutBlock) =>
        srtBlockLines (p.1 + 1) p.2).flatten ++ [[]]).length
      = (blocks.enum.map fun (p : Nat × OutBlock) =>
        srtBlockLines (p.1 + 1) p.2).flatten.length + 1 := by
    simp only [List.length_append, List.length_cons, List.length_nil]
  rw [hL, parseSRTGo_blockLines blocks.enum _ hgb (le_refl _)]
  exact List.enumFrom_map_snd 0 blocks

/-- C7: for every well-formed caption document, parsing it, serializing
the resulting block sequence unchanged in the same dialect, and reparsing
yields an identical block sequence — same block count, same start/end
timestamps, same text per block — in both dialects. -/
theorem roundtrip_same_dialect (blocks : List OutBlock)
    (hwf : ∀ b ∈ blocks, GoodBlock b) :
    parse_vtt (write_vtt blocks) = blocks ∧
    parse_srt (write_srt blocks) = blocks :=
  ⟨parse_write_vtt blocks hwf, parse_write_srt blocks hwf⟩

def wB1 : OutBlock := ⟨str "0:00:01.000", str "0:00:02.500", str "Hello world."⟩

def wB2 : OutBlock := ⟨str "0:00:02.500", str "0:00:04.000", str "Bye."⟩

theorem wB_good : ∀ b ∈ [wB1, wB2], GoodBlock b := by
  intro b hb
  rcases List.mem_cons.mp hb with rfl | hb
  · exact ⟨⟨⟨str "0", str "00", str "01", str "000"⟩,
        by unfold ValidParts; decide, by decide⟩,
      ⟨⟨str "0", str "00", str "02", str "500"⟩,
        by unfold ValidParts; decide, by decide⟩,
      by unfold GoodText; decide⟩
  rcases List.mem_cons.mp hb with rfl | hb
  · exact ⟨⟨⟨str "0", str "00", str "02", str "500"⟩,
        by unfold ValidParts; decide, by decide⟩,
      ⟨⟨str "0", str "00", str "04", str "000"⟩,
        by unfold ValidParts; decide, by decide⟩,
      by unfold GoodText; decide⟩
  simp at hb

/-- Witness for C7 at a concrete two-cue document. -/
theorem roundtrip_same_dialect_witness :
    (∀ b ∈ [wB1, wB2], GoodBlock b) ∧
    parse_vtt (write_vtt [wB1, wB2]) = [wB1, wB2] ∧
    parse_srt (write_srt [wB1, wB2]) = [wB1, wB2] :=
  ⟨wB_good, (roundtrip_same_dialect [wB1, wB2] wB_good).1,
    (roundtrip_same_dialect [wB1, wB2] wB_good).2⟩

/-- C8: for every well-formed caption document, converting from dialect A
to dialect B and back (parse in A, serialize in B, reparse in B, serialize
in A) preserves block count, per-block text and timing at millisecond
precision: the B-reparse returns the identical block sequence, so the
final A-serialization equals direct A-serialization; only the millisecond
separator (`.` vs `,`) and the header/numbering envelope differ between
the two wire forms. -/
theorem roundtrip_cross_dialect (blocks : List OutBlock)
    (hwf : ∀ b ∈ blocks, GoodBlock b) :
    parse_srt (write_srt blocks) = blocks ∧
    write_vtt (parse_srt (write_srt blocks)) = write_vtt blocks ∧
    parse_vtt (write_vtt blocks) = blocks ∧
    write_srt (parse_vtt (write_vtt blocks)) = write_srt blocks := by
  have h1 := parse_write_srt blocks hwf
  have h2 := parse_write_vtt blocks hwf
  exact ⟨h1, by rw [h1], h2, by rw [h2]⟩

/-- Witness for C8 at a concrete two-cue document. -/
theorem roundtrip_cross_dialect_witness :
    (∀ b ∈ [wB1, wB2], GoodBlock b) ∧
    parse_srt (write_srt [wB1, wB2]) = [wB1, wB2] ∧
    write_vtt (parse_srt (write_srt [wB1, wB2])) = write_vtt [wB1, wB2] ∧
    parse_vtt (write_vtt [wB1, wB2]) = [wB1, wB2] ∧
    write_srt (parse_vtt (write_vtt [wB1, wB2])) = write_srt [wB1, wB2] :=
  ⟨wB_good, (roundtrip_cross_dialect [wB1, wB2] wB_good).1,
    (roundtrip_cross_dialect [wB1, wB2] wB_good).2.1,
    (roundtrip_cross_dialect [wB1, wB2] wB_good).2.2.1,
    (roundtrip_cross_dialect [wB1, wB2] wB_good).2.2.2⟩

/-- C6: for every block sequence and every valid triple
`min_size ≤ target_size ≤ max_size` of positive integers, the emitted
batches are contiguous, non-overlapping, ascending half-open ranges exactly
covering `[0, len(blocks))`; every batch is non-empty and of size
`≤ max_size`, every non-final batch has size `≥ min_size` (so a trailing
partial batch shorter than `min_size` is still emitted, never dropped or
merged backward). -/
theorem create_smart_batches_spec (blocks : List OBlock)
    (target_size min_size max_size : Nat)
    (h1 : 0 < min_size) (h2 : min_size ≤ target_size) (h3 : target_size ≤ max_size) :
    batchesChain 0 (create_smart_batches blocks target_size min_size max_size)
        blocks.length = true ∧
    (∀ p ∈ create_smart_batches blocks target_size min_size max_size,
        p.2 - p.1 ≤ max_size ∧ 0 < p.2 - p.1) ∧
    (∀ p ∈ (create_smart_batches blocks target_size min_size max_size).dropLast,
        min_size ≤ p.2 - p.1) := by
  have h := smartLoop_spec min_size max_size h1 (le_trans h2 h3) blocks 0 0 0 rfl
    (lt_of_lt_of_le h1 (le_trans h2 h3))
  simpa [create_smart_batches] using h

/-- Witness for C6 at a concrete input. -/
theorem create_smart_batches_spec_witness :
    0 < 1 ∧ 1 ≤ 2 ∧ 2 ≤ 3 ∧
    batchesChain 0 (create_smart_batches
        [⟨str "a", str "b", str "Hi.", none⟩,
         ⟨str "c", str "d", str "and", none⟩,
         ⟨str "e", str "f", str "more", none⟩,
         ⟨str "g", str "h", str "words", none⟩] 2 1 3) 4 = true :=
  ⟨by decide, by decide, by decide,
    (create_smart_batches_spec
        [⟨str "a", str "b", str "Hi.", none⟩,
         ⟨str "c", str "d", str "and", none⟩,
         ⟨str "e", str "f", str "more", none⟩,
         ⟨str "g", str "h", str "words", none⟩] 2 1 3
        (by decide) (by decide) (by decide)).1⟩
